import Mathlib

/-!
# Verification of the dotagents plan/apply/undo engine

Shallow embedding of the core of the dotagents repository
(src/src/core/backup.ts, src/src/core/undo.ts, src/src/core/apply.ts,
the mapping table and root resolver) over an abstract filesystem model,
together with proofs of the specification claims.

Filesystem model: a path is a list of name components (the string root and
separators of the source are implicit, and path.resolve is the identity
because paths are kept in canonical component form).  A filesystem maps each
path to an optional node: a regular file with its content, a directory
marker, or a symbolic link holding its stored link text.  Existence of a
path is modelled as the presence of a node (the engine never manipulates
dangling symlinks, so the distinction between stat and lstat existence does
not arise in the claims).

Fallible rename calls are modelled with an explicit outcome argument
(`none` for success, `some code` for a failure with that error code),
mirroring the try/catch inspection of err.code in the source.
-/

namespace Dotagents

/-- A filesystem path, as its list of name components. -/
abbrev FsPath := List String

/-- A filesystem node: regular file with content, directory, or symbolic
link with its stored link text (kept in component form). -/
inductive Node where
  | file (content : String)
  | dir
  | symlink (link : FsPath)
deriving DecidableEq, Repr

/-- A filesystem: each path optionally holds a node. -/
abbrev Fs := FsPath → Option Node

/-- Modelled from the spec: pathExists from src/utils/fs.ts (the utils
module is not under src/): test whether something exists at a path. -/
def pathExists (fs : Fs) (p : FsPath) : Bool :=
  (fs p).isSome

/-- Modelled from the spec: removePath from src/utils/fs.ts (not under
src/): recursive removal of a path and everything beneath it. -/
def removePath (fs : Fs) (p : FsPath) : Fs :=
  fun q => if p.isPrefixOf q then none else fs q

/-- Modelled from the spec: ensureDir from src/utils/fs.ts (not under
src/): create the directory and any missing ancestors (mkdir -p); existing
nodes are left untouched. -/
def ensureDir (fs : Fs) (p : FsPath) : Fs :=
  fun q => if q.isPrefixOf p ∧ fs q = none then some Node.dir else fs q

/-- Modelled from the spec: copyDir from src/utils/fs.ts (not under src/):
recursive copy of the tree at src onto dst, overwriting what it covers
(force). -/
def copyDir (fs : Fs) (src dst : FsPath) : Fs :=
  fun q =>
    if dst.isPrefixOf q then
      match fs (src ++ q.drop dst.length) with
      | some n => some n
      | none => fs q
    else fs q

/-- Modelled from the spec: copyFile from src/utils/fs.ts (not under
src/): copy the single node at src onto dst, overwriting (force). -/
def copyFile (fs : Fs) (src dst : FsPath) : Fs :=
  fun q =>
    if q = dst then
      match fs src with
      | some n => some n
      | none => fs q
    else fs q

/-- fs.promises.rename on success: the whole subtree at src now appears at
dst and is gone from src. -/
def renameTree (fs : Fs) (src dst : FsPath) : Fs :=
  fun q =>
    if dst.isPrefixOf q then fs (src ++ q.drop dst.length)
    else if src.isPrefixOf q then none
    else fs q

/-- fs.promises.symlink: write a symlink node at a (fresh) path. -/
def writeNode (fs : Fs) (p : FsPath) (n : Node) : Fs :=
  fun q => if q = p then some n else fs q

/-- fs.promises.unlink: remove the single node at a path. -/
def unlink (fs : Fs) (p : FsPath) : Fs :=
  fun q => if q = p then none else fs q

/-- fs.promises.readlink: the stored link text of a symlink, an error
(EINVAL) otherwise. -/
def readlink (fs : Fs) (p : FsPath) : Except String FsPath :=
  match fs p with
  | some (Node.symlink link) => .ok link
  | _ => .error "EINVAL"

/-- The cross-device error classification checked by the engine. -/
def EXDEV : String := "EXDEV"

/-- Scope enum from src/src/core/types.ts (declarations only; modelled
from the spec: enum with values global and project). -/
inductive Scope where
  | global
  | project
deriving DecidableEq, Repr

/-- The kind field of a backup entry ('file' | 'dir' | 'symlink'). -/
inductive NodeKind where
  | file
  | dir
  | symlink
deriving DecidableEq, Repr

/-- lstat classification of a node. -/
def Node.kindOf : Node → NodeKind
  | .file _ => .file
  | .dir => .dir
  | .symlink _ => .symlink

/-- The action field of a backup entry ('backup' | 'create'). -/
inductive EntryAction where
  | backup
  | create
deriving DecidableEq, Repr

/-- BackupEntry from src/src/core/backup.ts. -/
structure BackupEntry where
  originalPath : FsPath
  backupPath : Option FsPath
  kind : NodeKind
  action : EntryAction
deriving DecidableEq, Repr

/-- BackupManifest from src/src/core/backup.ts. -/
structure BackupManifest where
  version : Nat
  createdAt : String
  scope : Scope
  operation : String
  entries : List BackupEntry
deriving DecidableEq, Repr

/-- BackupSession from src/src/core/backup.ts.  The JS _seen Set of
resolved paths is modelled as an insertion-ordered list. -/
structure BackupSession where
  dir : FsPath
  createdAt : String
  scope : Scope
  operation : String
  entries : List BackupEntry
  seen : List FsPath
deriving DecidableEq, Repr

/-- backupPathFor from src/src/core/backup.ts: strip the filesystem root
from the target and re-root it under the backup directory.  In the
component model the root is implicit, so the relative part is the target
itself. -/
def backupPathFor (target : FsPath) (backupRoot : FsPath) : FsPath :=
  backupRoot ++ target

/-- hasParentPath from src/src/core/backup.ts: some already-seen path is
the target itself or an ancestor of it.  The string test
resolved === parent || resolved.startsWith(parent + path.sep) is exactly
the component-list prefix test. -/
def hasParentPath (target : FsPath) (seen : List FsPath) : Bool :=
  seen.any (fun parent => parent.isPrefixOf target)

/-- backupSymlink from src/src/core/backup.ts: read the link text,
recreate an identical symlink at the backup destination, then unlink the
original. -/
def backupSymlink (fs : Fs) (target dest : FsPath) (link : FsPath) : Fs :=
  unlink (writeNode (ensureDir fs dest.dropLast) dest (Node.symlink link)) target

/-- backupPathImpl from src/src/core/backup.ts: ensure the destination
parent, attempt an atomic rename, and on an EXDEV failure fall back to
recursive copy (copyDir for directories, copyFile otherwise) followed by
removal of the original; any other rename error propagates. -/
def backupPathImpl (fs : Fs) (target dest : FsPath) (kind : NodeKind)
    (renameErr : Option String) : Except String Fs :=
  let fs1 := ensureDir fs dest.dropLast
  match renameErr with
  | none => .ok (renameTree fs1 target dest)
  | some code =>
    if code ≠ EXDEV then .error code
    else
      let fs2 := if kind = NodeKind.dir then copyDir fs1 target dest else copyFile fs1 target dest
      .ok (removePath fs2 target)

/-- backupPath from src/src/core/backup.ts: no-op when the target does not
exist or an already-seen path covers it; otherwise lstat the target, move
it into the backup tree (recreating symlinks rather than following them),
append one action: backup entry and mark the resolved path as seen. -/
def backupPath (fs : Fs) (target : FsPath) (s : BackupSession)
    (renameErr : Option String) : Except String (Fs × BackupSession × Bool) :=
  if ¬ pathExists fs target then .ok (fs, s, false)
  else if hasParentPath target s.seen then .ok (fs, s, false)
  else
    match fs target with
    | none => .ok (fs, s, false)
    | some n =>
      let dest := backupPathFor target s.dir
      let step : Except String Fs :=
        match n with
        | Node.symlink link => .ok (backupSymlink fs target dest link)
        | _ => backupPathImpl fs target dest n.kindOf renameErr
      match step with
      | .error e => .error e
      | .ok fs2 =>
        .ok (fs2,
          { s with
            entries := s.entries ++ [⟨target, some dest, n.kindOf, .backup⟩],
            seen := s.seen ++ [target] },
          true)

/-- recordCreatedPath from src/src/core/backup.ts: append an
action: create entry (no backup path) unless an already-seen path covers
the target, and mark it as seen. -/
def recordCreatedPath (target : FsPath) (kind : NodeKind) (s : BackupSession) :
    BackupSession :=
  if hasParentPath target s.seen then s
  else
    { s with
      entries := s.entries ++ [⟨target, none, kind, .create⟩],
      seen := s.seen ++ [target] }

/-- finalizeBackup from src/src/core/backup.ts: the manifest value
serialized to disk at session finalize. -/
def finalizeBackup (s : BackupSession) : BackupManifest :=
  { version := 1
    createdAt := s.createdAt
    scope := s.scope
    operation := s.operation
    entries := s.entries }

/-- createBackupSession from src/src/core/backup.ts: the session directory
is canonicalRoot/backup/timestamp (created on disk via ensureDir), with an
empty entry list and seen set.  The wall-clock reads (default timestamp and
createdAt) are passed in explicitly. -/
def createBackupSession (fs : Fs) (canonicalRoot : FsPath) (scope : Scope)
    (operation : String) (timestamp now : String) : Fs × BackupSession :=
  let dir := canonicalRoot ++ ["backup", timestamp]
  (ensureDir fs dir,
   { dir := dir
     createdAt := now
     scope := scope
     operation := operation
     entries := []
     seen := [] })

/-!
## Undo engine (src/src/core/undo.ts)

listBackupDirs and loadBackupManifest perform directory and file reads;
they are abstracted as the list of timestamped subdirectories and a loader
returning the parsed manifest of a directory when its manifest file exists.
-/

/-- Lexicographic comparison of character lists: the model of the
a.localeCompare(b) ascending comparator (on the engine's ISO-derived
timestamp strings this is plain lexicographic character order). -/
def charListLe : List Char → List Char → Bool
  | [], _ => true
  | _ :: _, [] => false
  | a :: as, b :: bs => if a < b then true else if b < a then false else charListLe as bs

/-- The string order used for manifest createdAt sorting. -/
def createdAtLe (a b : String) : Bool :=
  charListLe a.data b.data

/-- Stable ascending insertion by createdAt: a new element goes after every
element already placed whose createdAt is not greater. -/
def insertByCreatedAt (x : FsPath × BackupManifest) :
    List (FsPath × BackupManifest) → List (FsPath × BackupManifest)
  | [] => [x]
  | y :: rest =>
    if createdAtLe y.2.createdAt x.2.createdAt then y :: insertByCreatedAt x rest
    else x :: y :: rest

/-- The stable sort by manifest createdAt used by findLatestBackup
(Array.prototype.sort with an a.localeCompare(b) comparator is a stable
ascending sort; localeCompare on these ISO-style timestamps is modelled as
lexicographic string order). -/
def sortByCreatedAt (l : List (FsPath × BackupManifest)) :
    List (FsPath × BackupManifest) :=
  l.foldl (fun acc x => insertByCreatedAt x acc) []

/-- findLatestBackup from src/src/core/undo.ts: keep only directories whose
manifest loads, sort ascending by createdAt, and take the last. -/
def findLatestBackup (dirs : List FsPath)
    (load : FsPath → Option BackupManifest) : Option (FsPath × BackupManifest) :=
  let manifests := dirs.filterMap (fun d => (load d).map (fun m => (d, m)))
  if manifests.isEmpty then none
  else (sortByCreatedAt manifests).getLast?

/-- restoreSymlink from src/src/core/undo.ts: read the stored link text at
the backup copy, recreate the symlink at the original location, and remove
the stored backup symlink. -/
def restoreSymlink (fs : Fs) (entry : BackupEntry) : Except String Fs :=
  match entry.backupPath with
  | none => .ok fs
  | some bp =>
    match readlink fs bp with
    | .error e => .error e
    | .ok link =>
      .ok (unlink
        (writeNode (ensureDir fs entry.originalPath.dropLast) entry.originalPath
          (Node.symlink link)) bp)

/-- restorePath from src/src/core/undo.ts: delete a created path; restore a
backed-up symlink by recreating it; otherwise attempt a rename of the
backup copy back to the original location, falling back to copy-then-delete
on EXDEV, and propagating any other rename error. -/
def restorePath (fs : Fs) (entry : BackupEntry) (renameErr : Option String) :
    Except String Fs :=
  if entry.action = EntryAction.create then .ok (removePath fs entry.originalPath)
  else
    match entry.backupPath with
    | none => .ok fs
    | some bp =>
      if entry.kind = NodeKind.symlink then restoreSymlink fs entry
      else
        let fs1 := ensureDir fs entry.originalPath.dropLast
        match renameErr with
        | none => .ok (renameTree fs1 bp entry.originalPath)
        | some code =>
          if code ≠ EXDEV then .error code
          else
            let fs2 :=
              if entry.kind = NodeKind.dir then copyDir fs1 bp entry.originalPath
              else copyFile fs1 bp entry.originalPath
            .ok (removePath fs2 bp)

/-- backupExistingOriginals from src/src/core/undo.ts: defensively back up
(into the fresh undo session) whatever currently sits at each entry's
original path.  The rename outcome of the i-th processed entry is given by
the oracle at index i. -/
def backupExistingOriginals (fs : Fs) (entries : List BackupEntry)
    (s : BackupSession) (oracle : Nat → Option String) (i : Nat) :
    Except String (Fs × BackupSession) :=
  match entries with
  | [] => .ok (fs, s)
  | e :: rest =>
    if ¬ pathExists fs e.originalPath then
      backupExistingOriginals fs rest s oracle (i + 1)
    else
      match backupPath fs e.originalPath s (oracle i) with
      | .error err => .error err
      | .ok (fs1, s1, _) => backupExistingOriginals fs1 rest s1 oracle (i + 1)

/-- The four counters returned by undoLastChange. -/
structure RestoreCounts where
  restored : Nat
  restoredBackups : Nat
  removedCreated : Nat
  removedSymlinks : Nat
deriving DecidableEq, Repr

/-- The per-entry restore loop of undoLastChange (src/src/core/undo.ts):
a create entry is deleted, and counted, only when its original path
currently exists; a backup entry is restored, and counted, only when its
stored backup copy still exists; entries whose backup path is absent
contribute nothing. -/
def undoEntries (fs : Fs) (entries : List BackupEntry)
    (oracle : Nat → Option String) (i : Nat) (c : RestoreCounts) :
    Except String (Fs × RestoreCounts) :=
  match entries with
  | [] => .ok (fs, c)
  | e :: rest =>
    if e.action = EntryAction.create then
      if pathExists fs e.originalPath then
        match restorePath fs e (oracle i) with
        | .error err => .error err
        | .ok fs1 =>
          undoEntries fs1 rest oracle (i + 1)
            { restored := c.restored + 1
              restoredBackups := c.restoredBackups
              removedCreated := c.removedCreated + 1
              removedSymlinks :=
                c.removedSymlinks + (if e.kind = NodeKind.symlink then 1 else 0) }
      else undoEntries fs rest oracle (i + 1) c
    else
      match e.backupPath with
      | none => undoEntries fs rest oracle (i + 1) c
      | some bp =>
        if ¬ pathExists fs bp then undoEntries fs rest oracle (i + 1) c
        else
          match restorePath fs e (oracle i) with
          | .error err => .error err
          | .ok fs1 =>
            undoEntries fs1 rest oracle (i + 1)
              { c with
                restored := c.restored + 1
                restoredBackups := c.restoredBackups + 1 }

/-- The body of undoLastChange after the latest manifest has been found:
defensive sweep of the original paths into the fresh undo session, then the
per-entry restore loop. -/
def undoRun (fs : Fs) (entries : List BackupEntry) (undoSession : BackupSession)
    (sweepOracle loopOracle : Nat → Option String) :
    Except String (Fs × RestoreCounts) :=
  match backupExistingOriginals fs entries undoSession sweepOracle 0 with
  | .error e => .error e
  | .ok (fs1, _) => undoEntries fs1 entries loopOracle 0 ⟨0, 0, 0, 0⟩

/-- undoLastChange from src/src/core/undo.ts.  dirs and load abstract
listBackupDirs and loadBackupManifest; timestamp and now are the wall-clock
reads of the fresh undo session; the result carries the final filesystem,
the counters, the fresh session's directory (backupDir) and the undone
directory.  Finalizing the undo session writes its manifest to disk and
does not affect these observables. -/
def undoLastChange (fs : Fs) (scope : Scope) (canonicalRoot : FsPath)
    (dirs : List FsPath) (load : FsPath → Option BackupManifest)
    (timestamp now : String) (sweepOracle loopOracle : Nat → Option String) :
    Except String (Fs × RestoreCounts × FsPath × FsPath) :=
  match findLatestBackup dirs load with
  | none => .error "No backups found to undo."
  | some (dir, manifest) =>
    let fsSession := createBackupSession fs canonicalRoot scope "undo" timestamp now
    match undoRun fsSession.1 manifest.entries fsSession.2 sweepOracle loopOracle with
    | .error e => .error e
    | .ok (fs2, counts) => .ok (fs2, counts, fsSession.2.dir, dir)

/-!
## Apply engine (src/src/core/apply.ts)

The link task and plan shapes come from src/src/core/types.ts (declarations
only, modelled from the spec's Link Task data model); applyLinkPlan reads
only the tasks list of a plan.
-/

/-- SourceKind ('file' | 'dir') from src/src/core/types.ts. -/
inductive MappingKind where
  | file
  | dir
deriving DecidableEq, Repr

/-- Link Task, modelled from the spec: a discriminated variant over link,
conflict, noop and ensure-source. -/
inductive LinkTask where
  | link (source target : FsPath) (kind : MappingKind) (replaceSymlink : Bool)
  | conflict (source target : FsPath) (kind : MappingKind) (reason : String)
  | noop (source target : FsPath)
  | ensureSource (path : FsPath) (kind : MappingKind)
deriving DecidableEq, Repr

/-- Link Plan: applyLinkPlan consumes the tasks list (the conflicts and
changes fields of the plan are derived views built by the plan builder,
which is not under src/). -/
structure LinkPlan where
  tasks : List LinkTask
deriving DecidableEq, Repr

/-- DEFAULT_AGENTS from src/src/core/apply.ts. -/
def DEFAULT_AGENTS : String := "# AGENTS\n\nAdd shared agent instructions here.\n"

/-- Modelled from the spec: ensureFile from src/utils/fs.ts (not under
src/): create the file with the given content only if nothing exists at the
path. -/
def ensureFile (fs : Fs) (p : FsPath) (content : String) : Fs :=
  if pathExists fs p then fs
  else writeNode (ensureDir fs p.dropLast) p (Node.file content)

/-- createSource from src/src/core/apply.ts: an ensure-source task creates
the directory, or the file with the fixed default placeholder content. -/
def createSource (fs : Fs) (path : FsPath) (kind : MappingKind) : Fs :=
  if kind = MappingKind.dir then ensureDir fs path
  else ensureFile fs path DEFAULT_AGENTS

/-- Longest shared component prefix of two paths. -/
def commonPrefix2 : FsPath → FsPath → FsPath
  | x :: xs, y :: ys => if x = y then x :: commonPrefix2 xs ys else []
  | _, _ => []

/-- commonPath from src/src/core/apply.ts: the longest component prefix
shared by every path, null when there is none.  (The source's handling of
the empty leading component of absolute string paths is an artifact of
splitting on the separator and has no counterpart in the component
model.) -/
def commonPath (paths : List FsPath) : Option FsPath :=
  match paths with
  | [] => none
  | p :: rest =>
    let shared := rest.foldl commonPrefix2 p
    if shared.isEmpty then none else some shared

/-- The source-directory of a task used by inferBackupDir
(task.type === 'ensure-source' ? task.path : task.source, then dirname).
Every task carries its path, so the source's filter(Boolean) keeps all of
them. -/
def taskSourceDir : LinkTask → FsPath
  | .ensureSource p _ => p.dropLast
  | .link s _ _ _ => s.dropLast
  | .conflict s _ _ _ => s.dropLast
  | .noop s _ => s.dropLast

/-- inferBackupDir from src/src/core/apply.ts: common root of the task
source directories, extended by backup/timestamp (the wall-clock read is
passed in). -/
def inferBackupDir (plan : LinkPlan) (timestamp : String) : Option FsPath :=
  match commonPath (plan.tasks.map taskSourceDir) with
  | none => none
  | some root => some (root ++ ["backup", timestamp])

/-- backupTarget from src/src/core/apply.ts: false when the target does not
exist or is a symlink (symlinks are not backed up here); otherwise move the
target under the bare backup directory, attempting a rename and falling
back to copy-then-delete on EXDEV; other rename errors propagate.  No
session is involved and no manifest entry is recorded. -/
def backupTarget (fs : Fs) (target backupDir : FsPath) (renameErr : Option String) :
    Except String (Fs × Bool) :=
  if ¬ pathExists fs target then .ok (fs, false)
  else
    match fs target with
    | none => .ok (fs, false)
    | some (Node.symlink _) => .ok (fs, false)
    | some n =>
      let dest := backupDir ++ target
      let fs1 := ensureDir fs dest.dropLast
      match renameErr with
      | none => .ok (renameTree fs1 target dest, true)
      | some code =>
        if code ≠ EXDEV then .error code
        else
          let fs2 :=
            if n = Node.dir then copyDir fs1 target dest else copyFile fs1 target dest
          .ok (removePath fs2 target, true)

/-- createLink from src/src/core/apply.ts: an existing target is left alone
without force; with force it is backed up (when a backup directory is
available), removed, and replaced by a symlink to the source.  The junction
versus file symlink type only selects the Windows link flavor and has no
observable counterpart in the model. -/
def createLink (fs : Fs) (source target : FsPath) (kind : MappingKind)
    (force : Bool) (backupDir : Option FsPath) (renameErr : Option String) :
    Except String (Fs × Bool × Bool) :=
  if pathExists fs target then
    if ¬ force then .ok (fs, false, false)
    else
      match
        (match backupDir with
         | some bd => backupTarget fs target bd renameErr
         | none => .ok (fs, false)) with
      | .error e => .error e
      | .ok (fs1, backedUp) =>
        let fs2 := removePath fs1 target
        let fs3 := ensureDir fs2 target.dropLast
        .ok (writeNode fs3 target (Node.symlink source), true, backedUp)
  else
    let fs1 := ensureDir fs target.dropLast
    .ok (writeNode fs1 target (Node.symlink source), true, false)

/-- The aggregate counters returned by applyLinkPlan. -/
structure ApplyCounts where
  applied : Nat
  skipped : Nat
  conflicts : Nat
  backedUp : Nat
deriving DecidableEq, Repr

/-- The task loop of applyLinkPlan (src/src/core/apply.ts).  The conflict
branch's test force && task.target !== task.source && task.kind reduces to
force and target ≠ source because the kind field of a conflict task is a
non-empty string, hence always truthy.  The rename outcome of the i-th
task is given by the oracle at index i. -/
def applyTasks (fs : Fs) (tasks : List LinkTask) (force : Bool)
    (backupDir : Option FsPath) (oracle : Nat → Option String) (i : Nat)
    (c : ApplyCounts) : Except String (Fs × ApplyCounts) :=
  match tasks with
  | [] => .ok (fs, c)
  | t :: rest =>
    match t with
    | .conflict source target kind _ =>
      let c1 := { c with conflicts := c.conflicts + 1 }
      if force ∧ target ≠ source then
        match createLink fs source target kind true backupDir (oracle i) with
        | .error e => .error e
        | .ok (fs1, _, backedUp) =>
          applyTasks fs1 rest force backupDir oracle (i + 1)
            { c1 with
              backedUp := c1.backedUp + (if backedUp then 1 else 0)
              applied := c1.applied + 1 }
      else applyTasks fs rest force backupDir oracle (i + 1) c1
    | .noop _ _ =>
      applyTasks fs rest force backupDir oracle (i + 1)
        { c with skipped := c.skipped + 1 }
    | .ensureSource p kind =>
      applyTasks (createSource fs p kind) rest force backupDir oracle (i + 1)
        { c with applied := c.applied + 1 }
    | .link source target kind _ =>
      let before := pathExists fs target
      match createLink fs source target kind force backupDir (oracle i) with
      | .error e => .error e
      | .ok (fs1, _, backedUp) =>
        let c1 := { c with backedUp := c.backedUp + (if backedUp then 1 else 0) }
        applyTasks fs1 rest force backupDir oracle (i + 1)
          (if before ∧ ¬ force then { c1 with skipped := c1.skipped + 1 }
           else { c1 with applied := c1.applied + 1 })

/-- applyLinkPlan from src/src/core/apply.ts: the backup directory is the
supplied one, else the inferred one, and only under force; then the task
loop runs with zeroed counters.  Returns the final filesystem, the
counters, and the backup directory used. -/
def applyLinkPlan (fs : Fs) (plan : LinkPlan) (force : Bool)
    (optsBackupDir : Option FsPath) (timestamp : String)
    (oracle : Nat → Option String) :
    Except String (Fs × ApplyCounts × Option FsPath) :=
  let backupDir :=
    if force then
      match optsBackupDir with
      | some bd => some bd
      | none => inferBackupDir plan timestamp
    else none
  match applyTasks fs plan.tasks force backupDir oracle 0 ⟨0, 0, 0, 0⟩ with
  | .error e => .error e
  | .ok (fs1, c) => .ok (fs1, c, backupDir)

/-!
## Root resolver and mapping table (src/src/core/paths.ts, mappings)
-/

/-- Client from src/src/core/types.ts (declarations only; the client set
used by the mapping table). -/
inductive Client where
  | claude
  | factory
  | codex
  | cursor
  | opencode
  | gemini
deriving DecidableEq, Repr

/-- RootOptions from src/src/core/paths.ts.  The defaults for homeDir
(os.homedir()) and projectRoot (process.cwd()) are environment reads,
passed in explicitly here. -/
structure RootOptions where
  scope : Scope
  projectRoot : FsPath
  homeDir : FsPath
deriving DecidableEq, Repr

/-- ResolvedRoots from src/src/core/paths.ts. -/
structure ResolvedRoots where
  canonicalRoot : FsPath
  claudeRoot : FsPath
  factoryRoot : FsPath
  codexRoot : FsPath
  cursorRoot : FsPath
  opencodeRoot : FsPath
  opencodeConfigRoot : FsPath
  geminiRoot : FsPath
  projectRoot : FsPath
  homeDir : FsPath
deriving DecidableEq, Repr

/-- resolveRoots from src/src/core/paths.ts: global scope roots everything
under the home directory, project scope under the project root (with the
opencode config root always under home). -/
def resolveRoots (opts : RootOptions) : ResolvedRoots :=
  if opts.scope = Scope.global then
    { canonicalRoot := opts.homeDir ++ [".agents"]
      claudeRoot := opts.homeDir ++ [".claude"]
      factoryRoot := opts.homeDir ++ [".factory"]
      codexRoot := opts.homeDir ++ [".codex"]
      cursorRoot := opts.homeDir ++ [".cursor"]
      opencodeRoot := opts.homeDir ++ [".config", "opencode"]
      opencodeConfigRoot := opts.homeDir ++ [".config", "opencode"]
      geminiRoot := opts.homeDir ++ [".gemini"]
      projectRoot := opts.projectRoot
      homeDir := opts.homeDir }
  else
    { canonicalRoot := opts.projectRoot ++ [".agents"]
      claudeRoot := opts.projectRoot ++ [".claude"]
      factoryRoot := opts.projectRoot ++ [".factory"]
      codexRoot := opts.projectRoot ++ [".codex"]
      cursorRoot := opts.projectRoot ++ [".cursor"]
      opencodeRoot := opts.projectRoot ++ [".opencode"]
      opencodeConfigRoot := opts.homeDir ++ [".config", "opencode"]
      geminiRoot := opts.projectRoot ++ [".gemini"]
      projectRoot := opts.projectRoot
      homeDir := opts.homeDir }

/-- Mapping from src/src/core/types.ts (declarations only; the shape is
given by the spec's data model). -/
structure Mapping where
  name : String
  source : FsPath
  targets : List FsPath
  kind : MappingKind
deriving DecidableEq, Repr

/-- MappingOptions from the mapping table module. -/
structure MappingOptions where
  scope : Scope
  projectRoot : FsPath
  homeDir : FsPath
  clients : Option (List Client)
deriving DecidableEq, Repr

/-- The default client set (opts.clients ?? all six clients). -/
def allClients : List Client :=
  [.claude, .factory, .codex, .cursor, .opencode, .gemini]

/-- getMappings from the mapping table module (src/unnamed/part_003): the
Claude and Gemini instruction sources are resolved once per build against
the canonical root's override files, agent-instruction mappings are emitted
only in global scope, and the commands, hooks and skills directory mappings
are emitted for the selected clients. -/
def getMappings (fs : Fs) (opts : MappingOptions) : List Mapping :=
  let roots := resolveRoots ⟨opts.scope, opts.projectRoot, opts.homeDir⟩
  let canonical := roots.canonicalRoot
  let claudeOverride := canonical ++ ["CLAUDE.md"]
  let geminiOverride := canonical ++ ["GEMINI.md"]
  let agentsFallback := canonical ++ ["AGENTS.md"]
  let claudeSource := if pathExists fs claudeOverride then claudeOverride else agentsFallback
  let geminiSource := if pathExists fs geminiOverride then geminiOverride else agentsFallback
  let clients := opts.clients.getD allClients
  let opencodeSkillsRoot :=
    if opts.scope = Scope.global then roots.opencodeConfigRoot else roots.opencodeRoot
  let includeAgentFiles := opts.scope = Scope.global
  let part1 : List Mapping :=
    if includeAgentFiles ∧ clients.contains Client.claude then
      [{ name := "claude-md", source := claudeSource,
         targets := [roots.claudeRoot ++ ["CLAUDE.md"]], kind := .file }]
    else []
  let part2 : List Mapping :=
    if includeAgentFiles ∧ clients.contains Client.gemini then
      [{ name := "gemini-md", source := geminiSource,
         targets := [roots.geminiRoot ++ ["GEMINI.md"]], kind := .file }]
    else []
  let part3 : List Mapping :=
    if includeAgentFiles then
      let agentTargets : List FsPath :=
        ([if clients.contains Client.factory then some (roots.factoryRoot ++ ["AGENTS.md"]) else none,
          if clients.contains Client.codex then some (roots.codexRoot ++ ["AGENTS.md"]) else none,
          if clients.contains Client.opencode then some (roots.opencodeConfigRoot ++ ["AGENTS.md"]) else none]).filterMap id
      if agentTargets.isEmpty then []
      else [{ name := "agents-md", source := agentsFallback, targets := agentTargets, kind := .file }]
    else []
  let commandsTargets : List FsPath :=
    ([if clients.contains Client.claude then some (roots.claudeRoot ++ ["commands"]) else none,
      if clients.contains Client.factory then some (roots.factoryRoot ++ ["commands"]) else none,
      if clients.contains Client.codex then some (roots.codexRoot ++ ["prompts"]) else none,
      if clients.contains Client.opencode then some (roots.opencodeRoot ++ ["commands"]) else none,
      if clients.contains Client.cursor then some (roots.cursorRoot ++ ["commands"]) else none,
      if clients.contains Client.gemini then some (roots.geminiRoot ++ ["commands"]) else none]).filterMap id
  let hooksTargets : List FsPath :=
    ([if clients.contains Client.claude then some (roots.claudeRoot ++ ["hooks"]) else none,
      if clients.contains Client.factory then some (roots.factoryRoot ++ ["hooks"]) else none]).filterMap id
  let skillsTargets : List FsPath :=
    ([if clients.contains Client.claude then some (roots.claudeRoot ++ ["skills"]) else none,
      if clients.contains Client.factory then some (roots.factoryRoot ++ ["skills"]) else none,
      if clients.contains Client.codex then some (roots.codexRoot ++ ["skills"]) else none,
      if clients.contains Client.opencode then some (opencodeSkillsRoot ++ ["skills"]) else none,
      if clients.contains Client.cursor then some (roots.cursorRoot ++ ["skills"]) else none,
      if clients.contains Client.gemini then some (roots.geminiRoot ++ ["skills"]) else none]).filterMap id
  part1 ++ part2 ++ part3 ++
    [{ name := "commands", source := canonical ++ ["commands"],
       targets := commandsTargets, kind := .dir },
     { name := "hooks", source := canonical ++ ["hooks"],
       targets := hooksTargets, kind := .dir },
     { name := "skills", source := canonical ++ ["skills"],
       targets := skillsTargets, kind := .dir }]

/-- An agent-instructions file: AGENTS.md, or one of the client-specific
override files CLAUDE.md and GEMINI.md. -/
def instructionsFile (p : FsPath) : Bool :=
  p.getLast? = some "AGENTS.md" ∨ p.getLast? = some "CLAUDE.md" ∨ p.getLast? = some "GEMINI.md"

/-- Whether a link task is a conflict task. -/
def isConflictTask : LinkTask → Bool
  | .conflict _ _ _ _ => true
  | _ => false

/-- Neither path is a prefix of the other: the two subtrees are disjoint
and neither contains the other. -/
def SeparateFrom (a b : FsPath) : Prop :=
  a.isPrefixOf b ≠ true ∧ b.isPrefixOf a ≠ true

instance (a b : FsPath) : Decidable (SeparateFrom a b) :=
  And.decidable

/-- The path is tidy in the filesystem: an absent node has no descendants,
and a symlink node has no descendants (true of every real filesystem). -/
def TidyAt (fs : Fs) (p : FsPath) : Prop :=
  (fs p = none → ∀ rest, fs (p ++ rest) = none) ∧
  (∀ l, fs p = some (Node.symlink l) → ∀ rest, rest ≠ ([] : FsPath) →
    fs (p ++ rest) = none)

/-!
## Concrete example states

Small concrete filesystems, sessions and manifests used to evaluate the
verified functions on explicit inputs.
-/

/-- The empty filesystem. -/
def fsEmpty : Fs := fun _ => none

/-- Example filesystem: a single regular file at u/x and a directory b. -/
def fsFile : Fs := fun p =>
  if p = ["u", "x"] then some (Node.file "c")
  else if p = ["b"] then some Node.dir
  else none

/-- Example session rooted at b/t with nothing recorded yet. -/
def sessionFresh : BackupSession :=
  { dir := ["b", "t"]
    createdAt := "2024-01-01"
    scope := Scope.global
    operation := "apply"
    entries := []
    seen := [] }

/-- Example manifest with an early createdAt. -/
def manifestEarly : BackupManifest :=
  { version := 1, createdAt := "2024-01-01T00-00-00", scope := Scope.global
    operation := "apply", entries := [] }

/-- Example manifest with a later createdAt. -/
def manifestLate : BackupManifest :=
  { version := 1, createdAt := "2025-06-01T00-00-00", scope := Scope.global
    operation := "migrate", entries := [] }

/-- Backup directory listing for the findLatestBackup example: two
finalized sessions and one never-finalized session (no manifest). -/
def exampleDirs : List FsPath :=
  [["h", ".agents", "backup", "t1"],
   ["h", ".agents", "backup", "t2"],
   ["h", ".agents", "backup", "t3"]]

/-- Manifest loader for the findLatestBackup example: t1 holds the early
manifest, t2 was never finalized, t3 holds the late manifest. -/
def exampleLoad : FsPath → Option BackupManifest := fun d =>
  if d = ["h", ".agents", "backup", "t1"] then some manifestEarly
  else if d = ["h", ".agents", "backup", "t3"] then some manifestLate
  else none

/-- Project-scope mapping options with the default client set. -/
def optsProject : MappingOptions :=
  { scope := Scope.project, projectRoot := ["w", "proj"], homeDir := ["h"], clients := none }

/-- Global-scope mapping options with the default client set. -/
def optsGlobal : MappingOptions :=
  { scope := Scope.global, projectRoot := ["w", "proj"], homeDir := ["h"], clients := none }

/-- Filesystem holding a CLAUDE.md override (and no GEMINI.md) in the
global canonical root. -/
def fsClaudeOverride : Fs := fun p =>
  if p = ["h", ".agents"] then some Node.dir
  else if p = ["h", ".agents", "CLAUDE.md"] then some (Node.file "override")
  else if p = ["h", ".agents", "AGENTS.md"] then some (Node.file "shared")
  else none

/-- Filesystem for the forced-conflict example: the link target u/tgt is an
existing symlink, the canonical source a/src exists. -/
def fsSymlinkTarget : Fs := fun p =>
  if p = ["u", "tgt"] then some (Node.symlink ["old"])
  else if p = ["a", "src"] then some Node.dir
  else none

/-- A plan holding a single conflict task at the symlink target. -/
def planConflict : LinkPlan :=
  { tasks := [LinkTask.conflict ["a", "src"] ["u", "tgt"] MappingKind.dir "existing"] }

/-- Pre-operation filesystem for the round-trip example: a real file at p
and nothing else. -/
def fs0Undo : Fs := fun p =>
  if p = ["p"] then some (Node.file "x")
  else none

/-- Undo-time filesystem for the round-trip example: the operation
replaced p by a symlink (after moving the file into the session t1 of the
backup tree) and created a symlink at q. -/
def fs1Undo : Fs := fun p =>
  if p = ["p"] then some (Node.symlink ["link"])
  else if p = ["q"] then some (Node.symlink ["link2"])
  else if p = ["c", "backup", "t1", "p"] then some (Node.file "x")
  else none

/-- The manifest entries of the round-trip example: p was backed up, q was
created. -/
def undoExampleEntries : List BackupEntry :=
  [⟨["p"], some ["c", "backup", "t1", "p"], NodeKind.file, EntryAction.backup⟩,
   ⟨["q"], none, NodeKind.symlink, EntryAction.create⟩]

/-- The finalized manifest of the round-trip example. -/
def undoExampleManifest : BackupManifest :=
  { version := 1, createdAt := "2025-10-01T00-00-00", scope := Scope.global
    operation := "apply", entries := undoExampleEntries }

/-- The backup directory listing of the round-trip example. -/
def undoExampleDirs : List FsPath := [["c", "backup", "t1"]]

/-- The manifest loader of the round-trip example. -/
def undoExampleLoad : FsPath → Option BackupManifest := fun d =>
  if d = ["c", "backup", "t1"] then some undoExampleManifest else none

/-- The commands mapping produced for project scope with the default
client set under the example roots. -/
def projCommandsMapping : Mapping :=
  { name := "commands"
    source := ["w", "proj", ".agents", "commands"]
    targets :=
      [["w", "proj", ".claude", "commands"],
       ["w", "proj", ".factory", "commands"],
       ["w", "proj", ".codex", "prompts"],
       ["w", "proj", ".opencode", "commands"],
       ["w", "proj", ".cursor", "commands"],
       ["w", "proj", ".gemini", "commands"]]
    kind := MappingKind.dir }

/-!
## Order facts for the createdAt comparator
-/

theorem charListLe_refl (a : List Char) : charListLe a a = true := by
  induction a with
  | nil => rfl
  | cons x xs ih => simp [charListLe, ih]

theorem charListLe_total (a b : List Char) :
    charListLe a b = true ∨ charListLe b a = true := by
  induction a generalizing b with
  | nil => left; rfl
  | cons x xs ih =>
    cases b with
    | nil => right; rfl
    | cons y ys =>
      by_cases hxy : x < y
      · left; simp [charListLe, hxy]
      · by_cases hyx : y < x
        · right; simp [charListLe, hyx, asymm hyx]
        · have hxy' : x = y := le_antisymm (le_of_not_lt hyx) (le_of_not_lt hxy)
          subst hxy'
          rcases ih ys with h | h
          · left; simp [charListLe, h]
          · right; simp [charListLe, h]

theorem charListLe_trans {a b c : List Char} (h1 : charListLe a b = true)
    (h2 : charListLe b c = true) : charListLe a c = true := by
  induction a generalizing b c with
  | nil => rfl
  | cons x xs ih =>
    cases b with
    | nil => simp [charListLe] at h1
    | cons y ys =>
      cases c with
      | nil => simp [charListLe] at h2
      | cons z zs =>
        simp only [charListLe] at h1 h2 ⊢
        by_cases hxy : x < y
        · by_cases hyz : y < z
          · simp [lt_trans hxy hyz]
          · by_cases hzy : z < y
            · simp [charListLe, hzy, asymm hzy] at h2
            · have : y = z := le_antisymm (le_of_not_lt hzy) (le_of_not_lt hyz)
              subst this
              simp [hxy]
        · by_cases hyx : y < x
          · simp [hyx, asymm hyx] at h1
          · have hxy' : x = y := le_antisymm (le_of_not_lt hyx) (le_of_not_lt hxy)
            subst hxy'
            simp only [lt_irrefl, if_false] at h1 ⊢
            by_cases hyz : x < z
            · simp [hyz]
            · by_cases hzy : z < x
              · simp [hzy, asymm hzy] at h2
              · have : x = z := le_antisymm (le_of_not_lt hzy) (le_of_not_lt hyz)
                subst this
                simp only [lt_irrefl, if_false] at h1 h2 ⊢
                exact ih h1 h2

/-- The sorting relation of findLatestBackup. -/
def manifestLe (a b : FsPath × BackupManifest) : Prop :=
  createdAtLe a.2.createdAt b.2.createdAt = true

theorem manifestLe_total (a b : FsPath × BackupManifest) :
    manifestLe a b ∨ manifestLe b a :=
  charListLe_total _ _

theorem manifestLe_trans {a b c : FsPath × BackupManifest}
    (h1 : manifestLe a b) (h2 : manifestLe b c) : manifestLe a c :=
  charListLe_trans h1 h2

theorem mem_insertByCreatedAt {x y : FsPath × BackupManifest}
    {l : List (FsPath × BackupManifest)} :
    y ∈ insertByCreatedAt x l ↔ y = x ∨ y ∈ l := by
  induction l with
  | nil => simp [insertByCreatedAt]
  | cons z rest ih =>
    simp only [insertByCreatedAt]
    split
    · rw [List.mem_cons, List.mem_cons, ih]
      tauto
    · simp only [List.mem_cons]

theorem sorted_insertByCreatedAt {x : FsPath × BackupManifest}
    {l : List (FsPath × BackupManifest)} (h : l.Sorted manifestLe) :
    (insertByCreatedAt x l).Sorted manifestLe := by
  induction l with
  | nil => simp [insertByCreatedAt]
  | cons z rest ih =>
    rw [List.sorted_cons] at h
    obtain ⟨hz, hrest⟩ := h
    simp only [insertByCreatedAt]
    split
    next hle =>
      rw [List.sorted_cons]
      refine ⟨?_, ih hrest⟩
      intro b hb
      rcases mem_insertByCreatedAt.mp hb with hb | hb
      · subst hb; exact hle
      · exact hz b hb
    next hle =>
      rw [List.sorted_cons]
      refine ⟨?_, by rw [List.sorted_cons]; exact ⟨hz, hrest⟩⟩
      intro b hb
      have hxz : manifestLe x z := by
        rcases manifestLe_total x z with h | h
        · exact h
        · exact absurd h hle
      rcases List.mem_cons.mp hb with hb | hb
      · subst hb; exact hxz
      · exact manifestLe_trans hxz (hz b hb)

theorem mem_sortByCreatedAt_aux {y : FsPath × BackupManifest}
    (l acc : List (FsPath × BackupManifest)) :
    y ∈ l.foldl (fun acc x => insertByCreatedAt x acc) acc ↔ y ∈ acc ∨ y ∈ l := by
  induction l generalizing acc with
  | nil => simp
  | cons z rest ih =>
    simp only [List.foldl_cons, ih, mem_insertByCreatedAt, List.mem_cons]
    tauto

theorem mem_sortByCreatedAt {y : FsPath × BackupManifest}
    {l : List (FsPath × BackupManifest)} :
    y ∈ sortByCreatedAt l ↔ y ∈ l := by
  unfold sortByCreatedAt
  rw [mem_sortByCreatedAt_aux]
  simp

theorem sorted_sortByCreatedAt_aux (l acc : List (FsPath × BackupManifest))
    (h : acc.Sorted manifestLe) :
    (l.foldl (fun acc x => insertByCreatedAt x acc) acc).Sorted manifestLe := by
  induction l generalizing acc with
  | nil => exact h
  | cons z rest ih => exact ih _ (sorted_insertByCreatedAt h)

theorem sorted_sortByCreatedAt (l : List (FsPath × BackupManifest)) :
    (sortByCreatedAt l).Sorted manifestLe :=
  sorted_sortByCreatedAt_aux l [] (by simp)

theorem le_getLast_of_sorted :
    ∀ {l : List (FsPath × BackupManifest)}, l.Sorted manifestLe →
      ∀ {m a}, l.getLast? = some m → a ∈ l → manifestLe a m := by
  intro l
  induction l with
  | nil => intro _ m a h; simp at h
  | cons z rest ih =>
    intro hs m a hlast hmem
    rw [List.sorted_cons] at hs
    obtain ⟨hz, hrest⟩ := hs
    cases rest with
    | nil =>
      simp at hlast hmem
      subst hlast; subst hmem
      exact charListLe_refl _
    | cons w ws =>
      rw [List.getLast?_cons_cons] at hlast
      have hmmem : m ∈ w :: ws := List.mem_of_mem_getLast? hlast
      rcases List.mem_cons.mp hmem with hb | hb
      · subst hb; exact hz m hmmem
      · exact ih hrest hlast hb

/-!
## C5 and C9
-/

/-- C5: undoLastChange considers only timestamped backup subdirectories
whose manifest loads, and selects one whose createdAt is lexically
greatest among all loaded manifests; a never-finalized session directory
(its loader yields nothing) is never selected, and the result is empty
exactly when no directory has a manifest. -/
theorem findLatestBackup_picks_latest (dirs : List FsPath)
    (load : FsPath → Option BackupManifest) :
    (findLatestBackup dirs load = none ↔ ∀ d ∈ dirs, load d = none) ∧
    (∀ d m, findLatestBackup dirs load = some (d, m) →
      d ∈ dirs ∧ load d = some m ∧
      ∀ d2 m2, d2 ∈ dirs → load d2 = some m2 →
        createdAtLe m2.createdAt m.createdAt = true) := by
  rcases hL : dirs.filterMap (fun d => (load d).map (fun m => (d, m))) with _ | ⟨a, as⟩
  · have hnone : findLatestBackup dirs load = none := by
      unfold findLatestBackup
      rw [hL]
      rfl
    refine ⟨⟨fun _ d hd => ?_, fun _ => hnone⟩, fun d m hres => ?_⟩
    · have := List.filterMap_eq_nil.mp hL d hd
      simpa using this
    · rw [hnone] at hres
      exact absurd hres (by simp)
  · have hressome :
        findLatestBackup dirs load = (sortByCreatedAt (a :: as)).getLast? := by
      unfold findLatestBackup
      rw [hL]
      rfl
    have hne : sortByCreatedAt (a :: as) ≠ [] := by
      intro hc
      have : a ∈ sortByCreatedAt (a :: as) := mem_sortByCreatedAt.mpr (by simp)
      rw [hc] at this
      simp at this
    refine ⟨⟨fun h => ?_, fun h => ?_⟩, fun d m hres => ?_⟩
    · exfalso
      rw [hressome] at h
      exact hne (List.getLast?_eq_none.mp h)
    · exfalso
      have hmem : a ∈ dirs.filterMap (fun d => (load d).map (fun m => (d, m))) := by
        rw [hL]; simp
      rw [List.mem_filterMap] at hmem
      obtain ⟨d1, hd1, hload⟩ := hmem
      rw [h d1 hd1] at hload
      simp at hload
    · rw [hressome] at hres
      have hmem : (d, m) ∈ sortByCreatedAt (a :: as) := List.mem_of_mem_getLast? hres
      have hmem2 : (d, m) ∈ a :: as := mem_sortByCreatedAt.mp hmem
      have hmem3 : (d, m) ∈ dirs.filterMap (fun d => (load d).map (fun m => (d, m))) := by
        rw [hL]; exact hmem2
      rw [List.mem_filterMap] at hmem3
      obtain ⟨d1, hd1, hload⟩ := hmem3
      rcases Option.map_eq_some'.mp hload with ⟨m1, hm1, heq⟩
      rw [Prod.mk.injEq] at heq
      obtain ⟨rfl, rfl⟩ := heq
      refine ⟨hd1, hm1, ?_⟩
      intro d2 m2 hd2 hl2
      have hmem4 : (d2, m2) ∈ dirs.filterMap (fun d => (load d).map (fun m => (d, m))) :=
        List.mem_filterMap.mpr ⟨d2, hd2, by simp [hl2]⟩
      have hmem5 : (d2, m2) ∈ sortByCreatedAt (a :: as) := by
        rw [hL] at hmem4
        exact mem_sortByCreatedAt.mpr hmem4
      exact le_getLast_of_sorted (sorted_sortByCreatedAt (a :: as)) hres hmem5

/-- Concrete check of C5: among two finalized sessions and one
never-finalized directory, the selected manifest is the finalized one with
the lexically latest createdAt. -/
theorem findLatestBackup_picks_latest_witness :
    (["h", ".agents", "backup", "t3"] ∈ exampleDirs) ∧
    exampleLoad ["h", ".agents", "backup", "t3"] = some manifestLate ∧
    createdAtLe manifestEarly.createdAt manifestLate.createdAt = true := by
  have h := (findLatestBackup_picks_latest exampleDirs exampleLoad).2
    ["h", ".agents", "backup", "t3"] manifestLate (by decide)
  exact ⟨h.1, h.2.1, h.2.2 ["h", ".agents", "backup", "t1"] manifestEarly
    (by decide) (by decide)⟩

/-- C9 counterexample: with no backup session directories at all,
undoLastChange does not return an expected-state classification or empty
result; it fails with a thrown error. -/
theorem undoLastChange_no_backups_counterexample :
    undoLastChange fsEmpty Scope.global ["h", ".agents"] [] exampleLoad
      "t9" "now" (fun _ => none) (fun _ => none) =
      .error "No backups found to undo." := rfl

/-- C9 (amended): when no backup directory containing a manifest exists,
undoLastChange reports the no-backups condition as a thrown failure with
the message "No backups found to undo." (the interactive caller catches
it); it does not return an empty ok result. -/
theorem undoLastChange_no_backups_error (fs : Fs) (scope : Scope)
    (canonicalRoot : FsPath) (dirs : List FsPath)
    (load : FsPath → Option BackupManifest) (ts now : String)
    (so lo : Nat → Option String)
    (h : ∀ d ∈ dirs, load d = none) :
    undoLastChange fs scope canonicalRoot dirs load ts now so lo =
      .error "No backups found to undo." := by
  have hnone : findLatestBackup dirs load = none :=
    (findLatestBackup_picks_latest dirs load).1.mpr h
  unfold undoLastChange
  rw [hnone]

/-- Concrete check of the amended C9. -/
theorem undoLastChange_no_backups_error_witness :
    undoLastChange fsEmpty Scope.global ["h", ".agents"]
      [["h", ".agents", "backup", "t1"]] (fun _ => none) "t9" "now"
      (fun _ => none) (fun _ => none) =
      .error "No backups found to undo." :=
  undoLastChange_no_backups_error _ _ _ _ _ _ _ _ _ (fun _ _ => rfl)

/-!
## C7 and C8
-/

theorem instructionsFile_append_singleton (p : FsPath) (x : String)
    (h1 : x ≠ "AGENTS.md") (h2 : x ≠ "CLAUDE.md") (h3 : x ≠ "GEMINI.md") :
    instructionsFile (p ++ [x]) = false := by
  simp [instructionsFile, List.getLast?_concat, h1, h2, h3]

/-- C7: in project scope the mapping table contains only the commands,
hooks and skills directory mappings; no mapping's source or target is an
agent-instructions file (AGENTS.md, CLAUDE.md or GEMINI.md). -/
theorem getMappings_project_scope_isolation (fs : Fs) (opts : MappingOptions)
    (h : opts.scope = Scope.project) :
    ∀ m ∈ getMappings fs opts,
      (m.name = "commands" ∨ m.name = "hooks" ∨ m.name = "skills") ∧
      instructionsFile m.source = false ∧
      ∀ t ∈ m.targets, instructionsFile t = false := by
  intro m hm
  simp only [getMappings, resolveRoots, h] at hm
  simp only [reduceCtorEq, false_and, if_false, ite_false, if_neg, not_false_iff,
    List.nil_append] at hm
  rw [List.mem_cons, List.mem_cons, List.mem_cons] at hm
  rcases hm with hm | hm | hm | hm
  · subst hm
    refine ⟨by simp, instructionsFile_append_singleton _ _ (by simp) (by simp) (by simp), ?_⟩
    intro t ht
    rw [List.mem_filterMap] at ht
    obtain ⟨o, ho, hsome⟩ := ht
    simp only [List.mem_cons, List.not_mem_nil, or_false] at ho
    rcases ho with ho | ho | ho | ho | ho | ho <;>
      (subst ho; rw [id] at hsome) <;>
      split at hsome <;>
      simp only [Option.some.injEq, reduceCtorEq] at hsome <;>
      (subst hsome;
       exact instructionsFile_append_singleton _ _ (by simp) (by simp) (by simp))
  · subst hm
    refine ⟨by simp, instructionsFile_append_singleton _ _ (by simp) (by simp) (by simp), ?_⟩
    intro t ht
    rw [List.mem_filterMap] at ht
    obtain ⟨o, ho, hsome⟩ := ht
    simp only [List.mem_cons, List.not_mem_nil, or_false] at ho
    rcases ho with ho | ho <;>
      (subst ho; rw [id] at hsome) <;>
      split at hsome <;>
      simp only [Option.some.injEq, reduceCtorEq] at hsome <;>
      (subst hsome;
       exact instructionsFile_append_singleton _ _ (by simp) (by simp) (by simp))
  · subst hm
    refine ⟨by simp, instructionsFile_append_singleton _ _ (by simp) (by simp) (by simp), ?_⟩
    intro t ht
    rw [List.mem_filterMap] at ht
    obtain ⟨o, ho, hsome⟩ := ht
    simp only [List.mem_cons, List.not_mem_nil, or_false] at ho
    rcases ho with ho | ho | ho | ho | ho | ho <;>
      (subst ho; rw [id] at hsome) <;>
      split at hsome <;>
      simp only [Option.some.injEq, reduceCtorEq] at hsome <;>
      (subst hsome;
       exact instructionsFile_append_singleton _ _ (by simp) (by simp) (by simp))
  · simp at hm

/-- Concrete check of C7: the project-scope commands mapping carries no
agent-instructions file as source or target. -/
theorem getMappings_project_scope_isolation_witness :
    (projCommandsMapping.name = "commands" ∨ projCommandsMapping.name = "hooks" ∨
      projCommandsMapping.name = "skills") ∧
    instructionsFile projCommandsMapping.source = false ∧
    instructionsFile ["w", "proj", ".claude", "commands"] = false := by
  have h := getMappings_project_scope_isolation fsEmpty optsProject rfl
    projCommandsMapping (by decide)
  exact ⟨h.1, h.2.1, h.2.2 _ (by decide)⟩

theorem pathExists_removePath_self (fs : Fs) (p : FsPath) :
    pathExists (removePath fs p) p = false := by
  have hp : p.isPrefixOf p = true := List.isPrefixOf_iff_prefix.mpr List.prefix_rfl
  simp [pathExists, removePath, hp]

theorem getMappings_claude_source (fs : Fs) (opts : MappingOptions)
    (hscope : opts.scope = Scope.global)
    (hclaude : (opts.clients.getD allClients).contains Client.claude = true) :
    ((getMappings fs opts).filter (fun m => m.name = "claude-md")).map Mapping.source =
      [if pathExists fs ((opts.homeDir ++ [".agents"]) ++ ["CLAUDE.md"]) then
        (opts.homeDir ++ [".agents"]) ++ ["CLAUDE.md"]
       else (opts.homeDir ++ [".agents"]) ++ ["AGENTS.md"]] := by
  simp only [getMappings, resolveRoots, hscope, hclaude]
  simp only [List.filter_append, List.map_append]
  split <;> split <;> split <;> split <;> simp_all

theorem getMappings_gemini_source (fs : Fs) (opts : MappingOptions)
    (hscope : opts.scope = Scope.global)
    (hgemini : (opts.clients.getD allClients).contains Client.gemini = true) :
    ((getMappings fs opts).filter (fun m => m.name = "gemini-md")).map Mapping.source =
      [if pathExists fs ((opts.homeDir ++ [".agents"]) ++ ["GEMINI.md"]) then
        (opts.homeDir ++ [".agents"]) ++ ["GEMINI.md"]
       else (opts.homeDir ++ [".agents"]) ++ ["AGENTS.md"]] := by
  simp only [getMappings, resolveRoots, hscope, hgemini]
  simp only [List.filter_append, List.map_append]
  split <;> split <;> split <;> split <;> simp_all

/-- C8: the claude-md mapping's source resolves to the canonical root's
CLAUDE.md exactly when that file exists, and to AGENTS.md otherwise, and
analogously GEMINI.md for the gemini-md mapping; the table holds exactly
one such mapping, whose single resolved source is shared by its targets
(resolution happens once per build); and rebuilding after removing the
override routes the source back to the shared fallback file. -/
theorem getMappings_override_precedence (fs : Fs) (opts : MappingOptions)
    (hscope : opts.scope = Scope.global)
    (hclaude : (opts.clients.getD allClients).contains Client.claude = true)
    (hgemini : (opts.clients.getD allClients).contains Client.gemini = true) :
    (((getMappings fs opts).filter (fun m => m.name = "claude-md")).map Mapping.source =
      [if pathExists fs ((opts.homeDir ++ [".agents"]) ++ ["CLAUDE.md"]) then
        (opts.homeDir ++ [".agents"]) ++ ["CLAUDE.md"]
       else (opts.homeDir ++ [".agents"]) ++ ["AGENTS.md"]]) ∧
    (((getMappings fs opts).filter (fun m => m.name = "gemini-md")).map Mapping.source =
      [if pathExists fs ((opts.homeDir ++ [".agents"]) ++ ["GEMINI.md"]) then
        (opts.homeDir ++ [".agents"]) ++ ["GEMINI.md"]
       else (opts.homeDir ++ [".agents"]) ++ ["AGENTS.md"]]) ∧
    (((getMappings (removePath fs ((opts.homeDir ++ [".agents"]) ++ ["CLAUDE.md"])) opts).filter
        (fun m => m.name = "claude-md")).map Mapping.source =
      [(opts.homeDir ++ [".agents"]) ++ ["AGENTS.md"]]) ∧
    (((getMappings (removePath fs ((opts.homeDir ++ [".agents"]) ++ ["GEMINI.md"])) opts).filter
        (fun m => m.name = "gemini-md")).map Mapping.source =
      [(opts.homeDir ++ [".agents"]) ++ ["AGENTS.md"]]) := by
  refine ⟨getMappings_claude_source fs opts hscope hclaude,
    getMappings_gemini_source fs opts hscope hgemini, ?_, ?_⟩
  · rw [getMappings_claude_source _ opts hscope hclaude,
      pathExists_removePath_self]
    simp
  · rw [getMappings_gemini_source _ opts hscope hgemini,
      pathExists_removePath_self]
    simp

/-- Concrete check of C8: with a CLAUDE.md override present and no
GEMINI.md, the claude-md mapping routes to the override and the gemini-md
mapping to the shared fallback; after removing the override the claude-md
mapping routes back to the fallback. -/
theorem getMappings_override_precedence_witness :
    (((getMappings fsClaudeOverride optsGlobal).filter
        (fun m => m.name = "claude-md")).map Mapping.source =
      [["h", ".agents", "CLAUDE.md"]]) ∧
    (((getMappings fsClaudeOverride optsGlobal).filter
        (fun m => m.name = "gemini-md")).map Mapping.source =
      [["h", ".agents", "AGENTS.md"]]) ∧
    (((getMappings (removePath fsClaudeOverride ((["h"] ++ [".agents"]) ++ ["CLAUDE.md"]))
        optsGlobal).filter (fun m => m.name = "claude-md")).map Mapping.source =
      [["h", ".agents", "AGENTS.md"]]) := by
  have h := getMappings_override_precedence fsClaudeOverride optsGlobal rfl
    (by decide) (by decide)
  refine ⟨?_, ?_, ?_⟩
  · rw [h.1]
    decide
  · rw [h.2.1]
    decide
  · exact h.2.2.1

/-!
## C4: backupPath no-op rules and single-entry append
-/

theorem not_append_prefixOf {a b : FsPath} (h : a.isPrefixOf b ≠ true) :
    (a ++ b).isPrefixOf b ≠ true := by
  intro hc
  apply h
  rw [List.isPrefixOf_iff_prefix] at hc ⊢
  have hlen := hc.length_le
  rw [List.length_append] at hlen
  have : a = [] := List.eq_nil_of_length_eq_zero (by omega)
  subst this
  exact List.nil_prefix

theorem append_ne_of_not_prefix {a b : FsPath} (h : a.isPrefixOf b ≠ true) :
    a ++ b ≠ b := by
  intro hc
  apply h
  have : a = [] := by
    have hlen : (a ++ b).length = b.length := by rw [hc]
    rw [List.length_append] at hlen
    exact List.eq_nil_of_length_eq_zero (by omega)
  subst this
  rw [List.isPrefixOf_iff_prefix]
  exact List.nil_prefix

/-- C4: backupPath returns false and appends no entry when the target does
not exist or when an already-recorded path of the session is the target
itself or an ancestor of it; otherwise (clean rename) it moves the target
node into the backup tree and appends exactly one action: backup entry,
marking the path as seen; and once a path is seen, a later backupPath call
in the same session on anything nested beneath it is a no-op appending
nothing. -/
theorem backupPath_spec (fs : Fs) (target : FsPath) (s : BackupSession)
    (renameErr : Option String) :
    (¬ pathExists fs target = true →
      backupPath fs target s renameErr = .ok (fs, s, false)) ∧
    (hasParentPath target s.seen = true →
      backupPath fs target s renameErr = .ok (fs, s, false)) ∧
    (∀ n, fs target = some n → hasParentPath target s.seen = false →
      renameErr = none → s.dir.isPrefixOf target ≠ true →
      ∃ fs2, backupPath fs target s renameErr =
          .ok (fs2,
            { s with
              entries := s.entries ++
                [⟨target, some (s.dir ++ target), n.kindOf, .backup⟩]
              seen := s.seen ++ [target] }, true) ∧
        fs2 target = none ∧ fs2 (s.dir ++ target) = some n) ∧
    (∀ (fs3 : Fs) (t : FsPath) (r : Option String) (s2 : BackupSession),
      target ∈ s2.seen → target.isPrefixOf t = true →
      backupPath fs3 t s2 r = .ok (fs3, s2, false)) := by
  refine ⟨?_, ?_, ?_, ?_⟩
  · intro h
    simp [backupPath, h]
  · intro h
    by_cases hex : pathExists fs target = true
    · simp [backupPath, h, hex]
    · simp [backupPath, hex]
  · intro n hn hseen hre hdisj
    subst hre
    have hex : pathExists fs target = true := by simp [pathExists, hn]
    have hdestTarget : (s.dir ++ target).isPrefixOf target ≠ true := not_append_prefixOf hdisj
    have hdestNe : s.dir ++ target ≠ target := append_ne_of_not_prefix hdisj
    have hself : target.isPrefixOf target = true :=
      List.isPrefixOf_iff_prefix.mpr List.prefix_rfl
    cases n with
    | file content =>
      refine ⟨renameTree (ensureDir fs (backupPathFor target s.dir).dropLast) target
        (backupPathFor target s.dir), ?_, ?_, ?_⟩
      · simp [backupPath, hex, hseen, hn, backupPathImpl, backupPathFor]
      · simp only [renameTree, backupPathFor] at *
        simp [hdestTarget, hself]
      · simp only [renameTree, backupPathFor] at *
        rw [if_pos (List.isPrefixOf_iff_prefix.mpr List.prefix_rfl)]
        simp [List.drop_length, ensureDir, hn]
    | dir =>
      refine ⟨renameTree (ensureDir fs (backupPathFor target s.dir).dropLast) target
        (backupPathFor target s.dir), ?_, ?_, ?_⟩
      · simp [backupPath, hex, hseen, hn, backupPathImpl, backupPathFor]
      · simp only [renameTree, backupPathFor] at *
        simp [hdestTarget, hself]
      · simp only [renameTree, backupPathFor] at *
        rw [if_pos (List.isPrefixOf_iff_prefix.mpr List.prefix_rfl)]
        simp [List.drop_length, ensureDir, hn]
    | symlink link =>
      refine ⟨backupSymlink fs target (backupPathFor target s.dir) link, ?_, ?_, ?_⟩
      · simp [backupPath, hex, hseen, hn, backupPathFor]
      · simp [backupSymlink, unlink]
      · simp only [backupSymlink, unlink, writeNode, backupPathFor] at *
        simp [hdestNe]
  · intro fs3 t r s2 hmem hpre
    by_cases hex : pathExists fs3 t = true
    · have hpar : hasParentPath t s2.seen = true :=
        List.any_eq_true.mpr ⟨target, hmem, hpre⟩
      simp [backupPath, hex, hpar]
    · simp [backupPath, hex]

/-- Concrete check of C4: a real file is moved into the backup tree with
exactly one appended entry, and a subsequent call on a nested path in the
same session is a no-op. -/
theorem backupPath_spec_witness :
    (∃ fs2, backupPath fsFile ["u", "x"] sessionFresh none =
        .ok (fs2,
          { dir := ["b", "t"], createdAt := "2024-01-01", scope := Scope.global
            operation := "apply"
            entries := [⟨["u", "x"], some ["b", "t", "u", "x"], NodeKind.file,
              EntryAction.backup⟩]
            seen := [["u", "x"]] }, true) ∧
      fs2 ["u", "x"] = none ∧ fs2 ["b", "t", "u", "x"] = some (Node.file "c")) ∧
    backupPath fsFile ["u", "x", "nested"]
      { dir := ["b", "t"], createdAt := "2024-01-01", scope := Scope.global
        operation := "apply"
        entries := [⟨["u", "x"], some ["b", "t", "u", "x"], NodeKind.file,
          EntryAction.backup⟩]
        seen := [["u", "x"]] } none =
      .ok (fsFile,
        { dir := ["b", "t"], createdAt := "2024-01-01", scope := Scope.global
          operation := "apply"
          entries := [⟨["u", "x"], some ["b", "t", "u", "x"], NodeKind.file,
            EntryAction.backup⟩]
          seen := [["u", "x"]] }, false) := by
  constructor
  · exact (backupPath_spec fsFile ["u", "x"] sessionFresh none).2.2.1
      (Node.file "c") rfl (by decide) rfl (by decide)
  · exact (backupPath_spec fsFile ["u", "x"] sessionFresh none).2.2.2
      fsFile ["u", "x", "nested"] none _ (by decide) (by decide)

/-!
## C2: conflict safety without force
-/

theorem ensureDir_preserves {fs : Fs} {d p : FsPath} (h : (fs p).isSome = true) :
    ensureDir fs d p = fs p := by
  simp only [ensureDir]
  rw [if_neg]
  rintro ⟨-, hnone⟩
  rw [hnone] at h
  simp at h

theorem createSource_preserves (fs : Fs) (path : FsPath) (kind : MappingKind)
    {p : FsPath} (h : (fs p).isSome = true) : createSource fs path kind p = fs p := by
  unfold createSource
  split
  · exact ensureDir_preserves h
  · unfold ensureFile
    split
    · rfl
    next hne =>
      have hpne : p ≠ path := by
        intro hc
        subst hc
        simp [pathExists, h] at hne
      rw [writeNode, if_neg hpne]
      exact ensureDir_preserves h

theorem createLink_noforce (fs : Fs) (source target : FsPath) (kind : MappingKind)
    (backupDir : Option FsPath) (renameErr : Option String) :
    ∃ fs1 created, createLink fs source target kind false backupDir renameErr =
        .ok (fs1, created, false) ∧
      ∀ p, (fs p).isSome = true → fs1 p = fs p := by
  by_cases hex : pathExists fs target = true
  · exact ⟨fs, false, by simp [createLink, hex], fun p _ => rfl⟩
  · refine ⟨writeNode (ensureDir fs target.dropLast) target (Node.symlink source),
      true, by simp [createLink, hex], ?_⟩
    intro p hp
    have hpne : p ≠ target := by
      intro hc
      subst hc
      simp [pathExists, hp] at hex
    rw [writeNode, if_neg hpne]
    exact ensureDir_preserves hp

theorem applyTasks_noforce (tasks : List LinkTask) :
    ∀ (fs : Fs) (backupDir : Option FsPath) (oracle : Nat → Option String)
      (i : Nat) (c : ApplyCounts),
      ∃ fs1 c1, applyTasks fs tasks false backupDir oracle i c = .ok (fs1, c1) ∧
        (∀ p, (fs p).isSome = true → fs1 p = fs p) ∧
        c1.conflicts = c.conflicts + tasks.countP isConflictTask ∧
        c1.backedUp = c.backedUp ∧
        c1.applied + c1.skipped =
          c.applied + c.skipped + tasks.countP (fun t => !isConflictTask t) := by
  induction tasks with
  | nil =>
    intro fs backupDir oracle i c
    exact ⟨fs, c, rfl, fun _ _ => rfl, by simp, rfl, by simp⟩
  | cons t rest ih =>
    intro fs backupDir oracle i c
    cases t with
    | conflict source target kind reason =>
      obtain ⟨fs1, c1, hrun, hpres, hconf, hback, hcount⟩ :=
        ih fs backupDir oracle (i + 1) { c with conflicts := c.conflicts + 1 }
      refine ⟨fs1, c1, ?_, hpres, ?_, hback, ?_⟩
      · simpa [applyTasks] using hrun
      · rw [hconf]
        simp [List.countP_cons, isConflictTask]
        omega
      · rw [hcount]
        simp [List.countP_cons, isConflictTask]
    | noop source target =>
      obtain ⟨fs1, c1, hrun, hpres, hconf, hback, hcount⟩ :=
        ih fs backupDir oracle (i + 1) { c with skipped := c.skipped + 1 }
      refine ⟨fs1, c1, ?_, hpres, ?_, hback, ?_⟩
      · simpa [applyTasks] using hrun
      · rw [hconf]
        simp [List.countP_cons, isConflictTask]
      · rw [hcount]
        simp [List.countP_cons, isConflictTask]
        omega
    | ensureSource path kind =>
      obtain ⟨fs1, c1, hrun, hpres, hconf, hback, hcount⟩ :=
        ih (createSource fs path kind) backupDir oracle (i + 1)
          { c with applied := c.applied + 1 }
      refine ⟨fs1, c1, ?_, ?_, ?_, hback, ?_⟩
      · simpa [applyTasks] using hrun
      · intro p hp
        have h1 : createSource fs path kind p = fs p := createSource_preserves fs path kind hp
        have h2 : (createSource fs path kind p).isSome = true := by rw [h1]; exact hp
        rw [hpres p h2, h1]
      · rw [hconf]
        simp [List.countP_cons, isConflictTask]
      · rw [hcount]
        simp [List.countP_cons, isConflictTask]
        omega
    | link source target kind replace =>
      obtain ⟨fsL, created, hcl, hclPres⟩ :=
        createLink_noforce fs source target kind backupDir (oracle i)
      obtain ⟨fs1, c1, hrun, hpres, hconf, hback, hcount⟩ :=
        ih fsL backupDir oracle (i + 1)
          (if pathExists fs target ∧ ¬ false then
            { c with
              backedUp := c.backedUp + (if false then 1 else 0)
              skipped := c.skipped + 1 }
           else
            { c with
              backedUp := c.backedUp + (if false then 1 else 0)
              applied := c.applied + 1 })
      refine ⟨fs1, c1, ?_, ?_, ?_, ?_, ?_⟩
      · simp only [applyTasks, hcl]
        exact hrun
      · intro p hp
        have h2 : (fsL p).isSome = true := by rw [hclPres p hp]; exact hp
        rw [hpres p h2, hclPres p hp]
      · rw [hconf]
        by_cases hb : pathExists fs target = true <;>
          simp [hb, List.countP_cons, isConflictTask]
      · rw [hback]
        by_cases hb : pathExists fs target = true <;> simp [hb]
      · rw [hcount]
        by_cases hb : pathExists fs target = true <;>
          (simp [hb, List.countP_cons, isConflictTask]; omega)

/-- C2: applying a plan without force never deletes or replaces any
existing path (in particular no conflicting target is touched), each
conflict task is counted only in the conflicts total (applied plus skipped
account exactly for the non-conflict tasks, and nothing is backed up), and
no backup directory is engaged. -/
theorem applyLinkPlan_conflict_safety (fs : Fs) (plan : LinkPlan)
    (optsBackupDir : Option FsPath) (timestamp : String)
    (oracle : Nat → Option String) :
    ∃ fs1 c, applyLinkPlan fs plan false optsBackupDir timestamp oracle =
        .ok (fs1, c, none) ∧
      (∀ p, (fs p).isSome = true → fs1 p = fs p) ∧
      c.conflicts = plan.tasks.countP isConflictTask ∧
      c.backedUp = 0 ∧
      c.applied + c.skipped = plan.tasks.countP (fun t => !isConflictTask t) := by
  obtain ⟨fs1, c1, hrun, hpres, hconf, hback, hcount⟩ :=
    applyTasks_noforce plan.tasks fs none oracle 0 ⟨0, 0, 0, 0⟩
  refine ⟨fs1, c1, ?_, hpres, ?_, ?_, ?_⟩
  · simp only [applyLinkPlan, if_false, Bool.false_eq_true]
    rw [hrun]
  · simpa using hconf
  · simpa using hback
  · simpa using hcount

/-- Concrete check of C2: a plan holding one conflict task over an
existing symlink target, applied without force, leaves the filesystem
untouched and reports one conflict, nothing backed up. -/
theorem applyLinkPlan_conflict_safety_witness :
    ∃ fs1 c, applyLinkPlan fsSymlinkTarget planConflict false none "t" (fun _ => none) =
        .ok (fs1, c, none) ∧
      fs1 ["u", "tgt"] = fsSymlinkTarget ["u", "tgt"] ∧
      c.conflicts = 1 ∧ c.backedUp = 0 ∧ c.applied + c.skipped = 0 := by
  obtain ⟨fs1, c, hrun, hpres, hconf, hback, hcount⟩ :=
    applyLinkPlan_conflict_safety fsSymlinkTarget planConflict none "t" (fun _ => none)
  refine ⟨fs1, c, hrun, hpres _ (by decide), ?_, hback.trans (by decide), ?_⟩
  · rw [hconf]; decide
  · rw [hcount]; decide

/-!
## C6: rename first, EXDEV fallback, other errors propagate
-/

theorem prefix_trichotomy {a b q : FsPath} (ha : a.isPrefixOf q = true)
    (hb : b.isPrefixOf q = true) :
    a.isPrefixOf b = true ∨ b.isPrefixOf a = true := by
  simp only [List.isPrefixOf_iff_prefix] at ha hb ⊢
  exact List.prefix_or_prefix_of_prefix ha hb

theorem ensureDir_outside_eq {fs : Fs} {d q : FsPath}
    (h : q.isPrefixOf d ≠ true) : ensureDir fs d q = fs q := by
  simp only [ensureDir]
  rw [if_neg]
  rintro ⟨hqd, -⟩
  exact h hqd

theorem ensureDir_dest_subtree {fs : Fs} {dest q : FsPath} (hd : dest ≠ [])
    (h : dest.isPrefixOf q = true) : ensureDir fs dest.dropLast q = fs q := by
  apply ensureDir_outside_eq
  intro hqd
  rw [List.isPrefixOf_iff_prefix] at h hqd
  have hq : q <+: dest := hqd.trans (List.dropLast_prefix dest)
  have hlen : q.length = dest.length := le_antisymm hq.length_le h.length_le
  have heq : q = dest := List.eq_of_prefix_of_length_eq hq hlen
  subst heq
  have := hqd.length_le
  rw [List.length_dropLast] at this
  have hpos : 0 < q.length := List.length_pos.mpr hd
  omega

theorem copyDir_delete_eq_renameTree (fs : Fs) (src dst : FsPath)
    (h1 : src.isPrefixOf dst ≠ true) (h2 : dst.isPrefixOf src ≠ true)
    (hempty : ∀ q, dst.isPrefixOf q = true → fs q = none) :
    ∀ q, removePath (copyDir fs src dst) src q = renameTree fs src dst q := by
  intro q
  simp only [removePath, copyDir, renameTree]
  by_cases hsq : src.isPrefixOf q = true
  · rw [if_pos hsq]
    by_cases hdq : dst.isPrefixOf q = true
    · rcases prefix_trichotomy hsq hdq with h | h
      · exact absurd h h1
      · exact absurd h h2
    · rw [if_neg hdq, if_pos hsq]
  · rw [if_neg hsq]
    by_cases hdq : dst.isPrefixOf q = true
    · rw [if_pos hdq, if_pos hdq]
      cases hv : fs (src ++ q.drop dst.length) with
      | some n => simp
      | none => simp [hempty q hdq]
    · rw [if_neg hdq, if_neg hdq, if_neg hsq]

theorem copyFile_delete_eq_renameTree (fs : Fs) (src dst : FsPath)
    (h1 : src.isPrefixOf dst ≠ true) (h2 : dst.isPrefixOf src ≠ true)
    (hempty : ∀ q, dst.isPrefixOf q = true → fs q = none)
    (hnodesc : ∀ r, r ≠ ([] : FsPath) → fs (src ++ r) = none) :
    ∀ q, removePath (copyFile fs src dst) src q = renameTree fs src dst q := by
  intro q
  simp only [removePath, copyFile, renameTree]
  by_cases hsq : src.isPrefixOf q = true
  · rw [if_pos hsq]
    by_cases hdq : dst.isPrefixOf q = true
    · rcases prefix_trichotomy hsq hdq with h | h
      · exact absurd h h1
      · exact absurd h h2
    · rw [if_neg hdq, if_pos hsq]
  · rw [if_neg hsq]
    by_cases hqd : q = dst
    · subst hqd
      rw [if_pos rfl]
      have hdd : q.isPrefixOf q = true :=
        List.isPrefixOf_iff_prefix.mpr List.prefix_rfl
      rw [if_pos hdd, List.drop_length, List.append_nil]
      cases hv : fs src with
      | some n => rfl
      | none => exact hempty q hdd
    · rw [if_neg hqd]
      by_cases hdq : dst.isPrefixOf q = true
      · rw [if_pos hdq]
        obtain ⟨r, rfl⟩ := List.isPrefixOf_iff_prefix.mp hdq
        have hr : r ≠ [] := by
          intro hc
          subst hc
          simp at hqd
        rw [List.drop_left, hnodesc r hr]
        exact hempty _ hdq
      · rw [if_neg hdq, if_neg hsq]

/-- C6: every file or directory move into or out of the backup tree first
attempts a rename: a clean rename performs the move and the call succeeds;
a rename failure classified EXDEV falls back to recursive copy followed by
deletion of the source — onto a fresh destination this produces exactly
the filesystem of a clean rename — and any other rename failure
propagates its code to the caller and aborts; this holds both for
backupPathImpl (moves into the backup tree) and restorePath (moves out of
it). -/
theorem rename_exdev_fallback (fs : Fs) (target dest : FsPath) (kind : NodeKind)
    (entry : BackupEntry) (renameErr : Option String) :
    ((∃ fs2, backupPathImpl fs target dest kind renameErr = .ok fs2) ↔
      (renameErr = none ∨ renameErr = some EXDEV)) ∧
    (∀ code, code ≠ EXDEV →
      backupPathImpl fs target dest kind (some code) = .error code) ∧
    (kind = NodeKind.dir → dest ≠ [] →
      target.isPrefixOf dest ≠ true → dest.isPrefixOf target ≠ true →
      (∀ q, dest.isPrefixOf q = true → fs q = none) →
      backupPathImpl fs target dest kind (some EXDEV) =
        backupPathImpl fs target dest kind none) ∧
    (kind ≠ NodeKind.dir → dest ≠ [] →
      target.isPrefixOf dest ≠ true → dest.isPrefixOf target ≠ true →
      (∀ q, dest.isPrefixOf q = true → fs q = none) →
      (∀ r, r ≠ ([] : FsPath) → fs (target ++ r) = none) →
      backupPathImpl fs target dest kind (some EXDEV) =
        backupPathImpl fs target dest kind none) ∧
    (entry.action = EntryAction.backup → entry.kind ≠ NodeKind.symlink →
      ∀ bp, entry.backupPath = some bp →
      (((∃ fs2, restorePath fs entry renameErr = .ok fs2) ↔
          (renameErr = none ∨ renameErr = some EXDEV)) ∧
        (∀ code, code ≠ EXDEV → restorePath fs entry (some code) = .error code))) := by
  refine ⟨?_, ?_, ?_, ?_, ?_⟩
  · cases renameErr with
    | none => simp [backupPathImpl]
    | some code =>
      by_cases hc : code = EXDEV
      · subst hc
        simp [backupPathImpl]
      · simp [backupPathImpl, hc]
  · intro code hc
    simp [backupPathImpl, hc]
  · intro hkind hd h1 h2 hempty
    subst hkind
    simp only [backupPathImpl, if_pos rfl, if_neg (by simp : ¬ EXDEV ≠ EXDEV)]
    refine congrArg Except.ok (funext ?_)
    refine copyDir_delete_eq_renameTree _ target dest h1 h2 ?_
    intro q hq
    rw [ensureDir_dest_subtree hd hq]
    exact hempty q hq
  · intro hkind hd h1 h2 hempty hnodesc
    simp only [backupPathImpl, if_neg hkind, if_neg (by simp : ¬ EXDEV ≠ EXDEV)]
    refine congrArg Except.ok (funext ?_)
    refine copyFile_delete_eq_renameTree _ target dest h1 h2 ?_ ?_
    · intro q hq
      rw [ensureDir_dest_subtree hd hq]
      exact hempty q hq
    · intro r hr
      rw [ensureDir_outside_eq]
      · exact hnodesc r hr
      · intro hc
        apply h1
        rw [List.isPrefixOf_iff_prefix] at hc ⊢
        exact (List.prefix_append target r).trans (hc.trans (List.dropLast_prefix dest))
  · intro haction hkind bp hbp
    have hnc : (entry.action = EntryAction.create) = False := by
      rw [haction]
      simp
    constructor
    · cases renameErr with
      | none => simp [restorePath, hnc, hbp, hkind]
      | some code =>
        by_cases hc : code = EXDEV
        · subst hc
          simp [restorePath, hnc, hbp, hkind]
        · simp [restorePath, hnc, hbp, hkind, hc]
    · intro code hc
      simp [restorePath, hnc, hbp, hkind, hc]

/-- Concrete check of C6: a non-EXDEV rename failure propagates, the EXDEV
fallback reproduces the clean-rename result onto a fresh destination (for
a directory and for a file), and restoring a backed-up file entry
succeeds under a clean rename. -/
theorem rename_exdev_fallback_witness :
    backupPathImpl fsFile ["u", "x"] ["b", "d"] NodeKind.dir (some "EACCES") =
      .error "EACCES" ∧
    backupPathImpl fsFile ["u", "x"] ["b", "d"] NodeKind.dir (some "EXDEV") =
      backupPathImpl fsFile ["u", "x"] ["b", "d"] NodeKind.dir none ∧
    backupPathImpl fsFile ["u", "x"] ["b", "d"] NodeKind.file (some "EXDEV") =
      backupPathImpl fsFile ["u", "x"] ["b", "d"] NodeKind.file none ∧
    ∃ fs2, restorePath fsFile ⟨["u", "y"], some ["u", "x"], NodeKind.file,
      EntryAction.backup⟩ none = .ok fs2 := by
  have hempty : ∀ q, (["b", "d"] : FsPath).isPrefixOf q = true → fsFile q = none := by
    intro q hq
    rcases List.isPrefixOf_iff_prefix.mp hq with ⟨r, rfl⟩
    rfl
  have hnodesc : ∀ r, r ≠ ([] : FsPath) → fsFile (["u", "x"] ++ r) = none := by
    intro r hr
    cases r with
    | nil => exact absurd rfl hr
    | cons a as => rfl
  refine ⟨?_, ?_, ?_, ?_⟩
  · exact (rename_exdev_fallback fsFile ["u", "x"] ["b", "d"] NodeKind.dir
      ⟨[], none, NodeKind.file, EntryAction.backup⟩ none).2.1 "EACCES" (by decide)
  · exact (rename_exdev_fallback fsFile ["u", "x"] ["b", "d"] NodeKind.dir
      ⟨[], none, NodeKind.file, EntryAction.backup⟩ none).2.2.1 rfl (by decide)
      (by decide) (by decide) hempty
  · exact (rename_exdev_fallback fsFile ["u", "x"] ["b", "d"] NodeKind.file
      ⟨[], none, NodeKind.file, EntryAction.backup⟩ none).2.2.2.1 (by decide)
      (by decide) (by decide) (by decide) hempty hnodesc
  · exact ((rename_exdev_fallback fsFile ["u", "x"] ["b", "d"] NodeKind.file
      ⟨["u", "y"], some ["u", "x"], NodeKind.file, EntryAction.backup⟩ none).2.2.2.2
      rfl (by decide) ["u", "x"] rfl).1.mpr (Or.inl rfl)

/-!
## C10: counter accounting of the undo loop
-/

theorem undoEntries_counter_inv (entries : List BackupEntry) :
    ∀ (fs : Fs) (oracle : Nat → Option String) (i : Nat) (c : RestoreCounts),
      c.restored = c.restoredBackups + c.removedCreated →
      ∀ fs2 c2, undoEntries fs entries oracle i c = .ok (fs2, c2) →
        c2.restored = c2.restoredBackups + c2.removedCreated := by
  induction entries with
  | nil =>
    intro fs oracle i c h fs2 c2 hrun
    rw [undoEntries] at hrun
    simp only [Except.ok.injEq, Prod.mk.injEq] at hrun
    obtain ⟨-, rfl⟩ := hrun
    exact h
  | cons e rest ih =>
    intro fs oracle i c h fs2 c2 hrun
    rw [undoEntries] at hrun
    split at hrun
    · split at hrun
      · split at hrun
        · exact absurd hrun (by simp)
        · exact ih _ oracle (i + 1) _ (by simp; omega) fs2 c2 hrun
      · exact ih fs oracle (i + 1) c h fs2 c2 hrun
    · split at hrun
      · exact ih fs oracle (i + 1) c h fs2 c2 hrun
      · split at hrun
        · exact ih fs oracle (i + 1) c h fs2 c2 hrun
        · split at hrun
          · exact absurd hrun (by simp)
          · exact ih _ oracle (i + 1) _ (by simp; omega) fs2 c2 hrun

/-- C10: the loop counters satisfy restored = restoredBackups +
removedCreated (for the whole loop started at zero, hence for the counters
undoRun returns); a create entry is deleted and counted in removedCreated
(and in removedSymlinks exactly when its kind is symlink) only when its
original path currently exists; a backup entry is counted in
restoredBackups only when its stored backup copy still exists on disk; an
entry with no backup path or whose backup copy has vanished contributes to
no counter. -/
theorem undo_counter_accounting (fs : Fs) (entries : List BackupEntry)
    (oracle sweepOracle : Nat → Option String) (i : Nat) (c : RestoreCounts)
    (e : BackupEntry) (s : BackupSession) :
    (∀ fs2 c2, undoRun fs entries s sweepOracle oracle = .ok (fs2, c2) →
      c2.restored = c2.restoredBackups + c2.removedCreated) ∧
    (e.action = EntryAction.create → pathExists fs e.originalPath = true →
      undoEntries fs [e] oracle i c =
        .ok (removePath fs e.originalPath,
          { restored := c.restored + 1
            restoredBackups := c.restoredBackups
            removedCreated := c.removedCreated + 1
            removedSymlinks := c.removedSymlinks +
              (if e.kind = NodeKind.symlink then 1 else 0) })) ∧
    (e.action = EntryAction.create → pathExists fs e.originalPath = false →
      undoEntries fs [e] oracle i c = .ok (fs, c)) ∧
    (e.action = EntryAction.backup → e.backupPath = none →
      undoEntries fs [e] oracle i c = .ok (fs, c)) ∧
    (∀ bp, e.action = EntryAction.backup → e.backupPath = some bp →
      pathExists fs bp = false →
      undoEntries fs [e] oracle i c = .ok (fs, c)) ∧
    (∀ bp fs1, e.action = EntryAction.backup → e.backupPath = some bp →
      pathExists fs bp = true → restorePath fs e (oracle i) = .ok fs1 →
      undoEntries fs [e] oracle i c =
        .ok (fs1,
          { c with
            restored := c.restored + 1
            restoredBackups := c.restoredBackups + 1 })) := by
  refine ⟨?_, ?_, ?_, ?_, ?_, ?_⟩
  · intro fs2 c2 hrun
    rw [undoRun] at hrun
    cases hsw : backupExistingOriginals fs entries s sweepOracle 0 with
    | error err =>
      rw [hsw] at hrun
      exact absurd hrun (by simp)
    | ok pair =>
      rw [hsw] at hrun
      exact undoEntries_counter_inv entries pair.1 oracle 0 ⟨0, 0, 0, 0⟩ rfl fs2 c2 hrun
  · intro hact hex
    have hrp : restorePath fs e (oracle i) = .ok (removePath fs e.originalPath) := by
      rw [restorePath, if_pos hact]
    rw [undoEntries, if_pos hact, if_pos hex, hrp]
    simp [undoEntries]
  · intro hact hex
    rw [undoEntries, if_pos hact, if_neg (by simp [hex])]
    simp [undoEntries]
  · intro hact hbp
    have hnc : ¬ e.action = EntryAction.create := by
      rw [hact]
      simp
    rw [undoEntries, if_neg hnc, hbp]
    simp [undoEntries]
  · intro bp hact hbp hex
    have hnc : ¬ e.action = EntryAction.create := by
      rw [hact]
      simp
    rw [undoEntries, if_neg hnc, hbp]
    simp [hex, undoEntries]
  · intro bp fs1 hact hbp hex hrp
    have hnc : ¬ e.action = EntryAction.create := by
      rw [hact]
      simp
    rw [undoEntries, if_neg hnc, hbp]
    simp [hex, hrp, undoEntries]

/-- Concrete check of C10: a create entry whose path exists is deleted and
counted; a backup entry whose copy vanished contributes nothing; a backup
entry whose copy exists is restored and counted; the sum identity holds on
the resulting counters. -/
theorem undo_counter_accounting_witness :
    (undoEntries fsFile [⟨["u", "x"], none, NodeKind.file, EntryAction.create⟩]
      (fun _ => none) 0 ⟨0, 0, 0, 0⟩ =
      .ok (removePath fsFile ["u", "x"], ⟨1, 0, 1, 0⟩)) ∧
    (undoEntries fsFile [⟨["u", "y"], some ["b", "gone"], NodeKind.file,
        EntryAction.backup⟩] (fun _ => none) 0 ⟨0, 0, 0, 0⟩ =
      .ok (fsFile, ⟨0, 0, 0, 0⟩)) ∧
    (∃ fs1, undoEntries fsFile [⟨["u", "y"], some ["u", "x"], NodeKind.file,
        EntryAction.backup⟩] (fun _ => none) 0 ⟨0, 0, 0, 0⟩ =
      .ok (fs1, ⟨1, 1, 0, 0⟩)) ∧
    (1 : Nat) = 1 + 0 := by
  refine ⟨?_, ?_, ?_, rfl⟩
  · exact (undo_counter_accounting fsFile [] (fun _ => none) (fun _ => none) 0
      ⟨0, 0, 0, 0⟩ ⟨["u", "x"], none, NodeKind.file, EntryAction.create⟩
      sessionFresh).2.1 rfl (by decide)
  · exact (undo_counter_accounting fsFile [] (fun _ => none) (fun _ => none) 0
      ⟨0, 0, 0, 0⟩ ⟨["u", "y"], some ["b", "gone"], NodeKind.file,
        EntryAction.backup⟩ sessionFresh).2.2.2.2.1 ["b", "gone"] rfl rfl (by decide)
  · exact ⟨_, (undo_counter_accounting fsFile [] (fun _ => none) (fun _ => none) 0
      ⟨0, 0, 0, 0⟩ ⟨["u", "y"], some ["u", "x"], NodeKind.file,
        EntryAction.backup⟩ sessionFresh).2.2.2.2.2 ["u", "x"] _ rfl rfl
      (by decide) rfl⟩

/-!
## C3: forced replacement of a symlink target
-/

/-- C3 failing input, evaluated: forcing an apply over a conflict task
whose target is an existing symlink replaces the symlink with a new link
to the source, yet backedUp stays 0 and nothing appears under the supplied
backup directory — backupTarget skips symlinks, and applyLinkPlan works
against a bare backup directory with no session, so no manifest entry is
recorded for the destroyed path. -/
theorem applyLinkPlan_force_symlink_not_backed_up :
    ∃ fs4, applyLinkPlan fsSymlinkTarget planConflict true (some ["b", "bk"])
        "ts" (fun _ => none) =
      .ok (fs4, ⟨1, 0, 1, 0⟩, some ["b", "bk"]) ∧
      fsSymlinkTarget ["u", "tgt"] = some (Node.symlink ["old"]) ∧
      fs4 ["u", "tgt"] = some (Node.symlink ["a", "src"]) ∧
      fs4 ["b", "bk", "u", "tgt"] = none :=
  ⟨_, rfl, rfl, rfl, rfl⟩

/-!
## C1: undo restores the pre-operation state at every recorded path

Boolean prefix toolbox.
-/

theorem isPrefixOf_refl (a : FsPath) : a.isPrefixOf a = true :=
  List.isPrefixOf_iff_prefix.mpr List.prefix_rfl

theorem isPrefixOf_trans {a b c : FsPath} (h1 : a.isPrefixOf b = true)
    (h2 : b.isPrefixOf c = true) : a.isPrefixOf c = true := by
  rw [List.isPrefixOf_iff_prefix] at h1 h2 ⊢
  exact h1.trans h2

theorem isPrefixOf_append_left (a b : FsPath) : a.isPrefixOf (a ++ b) = true :=
  List.isPrefixOf_iff_prefix.mpr (List.prefix_append a b)

theorem nil_isPrefixOf (a : FsPath) : ([] : FsPath).isPrefixOf a = true :=
  List.isPrefixOf_iff_prefix.mpr (List.nil_prefix)

theorem SeparateFrom.ne_nil_right {a b : FsPath} (h : SeparateFrom a b) : b ≠ [] := by
  intro hc
  subst hc
  exact h.2 (nil_isPrefixOf a)

theorem SeparateFrom.ne_nil_left {a b : FsPath} (h : SeparateFrom a b) : a ≠ [] := by
  intro hc
  subst hc
  exact h.1 (nil_isPrefixOf b)

theorem SeparateFrom.symm {a b : FsPath} (h : SeparateFrom a b) : SeparateFrom b a :=
  ⟨h.2, h.1⟩

/-- Two prefixes of one path are comparable, so a path separate from
another is never a prefix of anything the other is a prefix of. -/
theorem SeparateFrom.not_both_prefixOf {a b q : FsPath} (h : SeparateFrom a b)
    (ha : a.isPrefixOf q = true) : b.isPrefixOf q ≠ true := by
  intro hb
  rcases prefix_trichotomy ha hb with hc | hc
  · exact h.1 hc
  · exact h.2 hc

theorem append_cons_ne_self {a : FsPath} {x : String} {r : List String} :
    a ++ x :: r ≠ a := by
  intro hc
  have := congrArg List.length hc
  rw [List.length_append, List.length_cons] at this
  omega

/-- A path below a separate subtree is never an ancestor of the other
path. -/
theorem SeparateFrom.no_descendant_ancestor {a b q : FsPath} (h : SeparateFrom a b)
    (ha : a.isPrefixOf q = true) (hq : q.isPrefixOf b = true) : False :=
  h.1 (isPrefixOf_trans ha hq)

/-- Sweep step: backing up one target of the undo session clears the
target's subtree and touches nothing outside the target's subtree, the
session directory's subtree and the ancestors of the session directory. -/
theorem sweep_step (fs : Fs) (target : FsPath) (s : BackupSession)
    (hsep : SeparateFrom target s.dir)
    (htidy : TidyAt fs target)
    (hseen : ∀ p ∈ s.seen, p.isPrefixOf target ≠ true) :
    ∃ fs2 s2 moved, backupPath fs target s none = .ok (fs2, s2, moved) ∧
      s2.dir = s.dir ∧
      (s2.seen = s.seen ∨ s2.seen = s.seen ++ [target]) ∧
      (∀ rest, fs2 (target ++ rest) = none) ∧
      (∀ q, target.isPrefixOf q ≠ true → s.dir.isPrefixOf q ≠ true →
        q.isPrefixOf s.dir ≠ true → fs2 q = fs q) := by
  by_cases hex : pathExists fs target = true
  · have hpar : hasParentPath target s.seen = false := by
      rw [hasParentPath]
      rw [List.any_eq_false]
      intro p hp
      simpa using hseen p hp
    cases hn : fs target with
    | none => simp [pathExists, hn] at hex
    | some n =>
      have hne : s.dir ≠ [] := hsep.ne_nil_right
      have hdest_ne : s.dir ++ target ≠ target := by
        intro hc
        have := congrArg List.length hc
        rw [List.length_append] at this
        have : s.dir = [] := List.eq_nil_of_length_eq_zero (by omega)
        exact hne this
      -- the destination subtree and its ancestors are excluded from the
      -- target's subtree
      have hsub_clear : ∀ (r : List String),
          target.isPrefixOf (target ++ r) = true := fun r => isPrefixOf_append_left _ _
      have hdest_not_in_target : ∀ (r : List String),
          (s.dir ++ target).isPrefixOf (target ++ r) = true → False := by
        intro r hc
        have h1 : s.dir.isPrefixOf (target ++ r) = true :=
          isPrefixOf_trans (isPrefixOf_append_left s.dir target) hc
        exact hsep.symm.not_both_prefixOf h1 (hsub_clear r)
      have hanc_not_in_target : ∀ (r : List String),
          (target ++ r).isPrefixOf ((s.dir ++ target).dropLast) = true → False := by
        intro r hc
        have h1 : (target ++ r).isPrefixOf (s.dir ++ target) = true :=
          isPrefixOf_trans hc
            (List.isPrefixOf_iff_prefix.mpr (List.dropLast_prefix _))
        have h2 : target.isPrefixOf (s.dir ++ target) = true :=
          isPrefixOf_trans (isPrefixOf_append_left target r) h1
        rcases prefix_trichotomy h2 (isPrefixOf_append_left s.dir target) with hc2 | hc2
        · exact hsep.1 hc2
        · exact hsep.2 hc2
      cases n with
      | symlink link =>
        refine ⟨backupSymlink fs target (backupPathFor target s.dir) link,
          { s with
            entries := s.entries ++ [⟨target, some (backupPathFor target s.dir),
              NodeKind.symlink, .backup⟩]
            seen := s.seen ++ [target] }, true, ?_, rfl, Or.inr rfl, ?_, ?_⟩
        · simp [backupPath, hex, hpar, hn, backupPathFor, Node.kindOf]
        · intro rest
          cases rest with
          | nil =>
            simp [backupSymlink, unlink, List.append_nil]
          | cons x r =>
            rw [backupSymlink, unlink]
            rw [if_neg append_cons_ne_self]
            rw [writeNode, if_neg]
            · rw [backupPathFor, ensureDir]
              rw [if_neg]
              · exact htidy.2 link hn (x :: r) (by simp)
              · rintro ⟨hc, -⟩
                exact hanc_not_in_target (x :: r) hc
            · rw [backupPathFor]
              intro hc
              exact hdest_not_in_target (x :: r) (hc ▸ isPrefixOf_refl _)
        · intro q hq1 hq2 hq3
          rw [backupSymlink, unlink]
          rw [if_neg]
          · rw [writeNode, if_neg]
            · rw [backupPathFor, ensureDir, if_neg]
              rintro ⟨hc, -⟩
              have h1 : q.isPrefixOf (s.dir ++ target) = true :=
                isPrefixOf_trans hc
                  (List.isPrefixOf_iff_prefix.mpr (List.dropLast_prefix _))
              rcases prefix_trichotomy h1 (isPrefixOf_append_left s.dir target) with hc2 | hc2
              · exact hq3 hc2
              · exact hq2 hc2
            · rw [backupPathFor]
              intro hc
              subst hc
              exact hq2 (isPrefixOf_append_left s.dir target)
          · intro hc
            subst hc
            exact hq1 (isPrefixOf_refl q)
      | file content =>
        refine ⟨renameTree (ensureDir fs (backupPathFor target s.dir).dropLast)
            target (backupPathFor target s.dir),
          { s with
            entries := s.entries ++ [⟨target, some (backupPathFor target s.dir),
              NodeKind.file, .backup⟩]
            seen := s.seen ++ [target] }, true, ?_, rfl, Or.inr rfl, ?_, ?_⟩
        · simp [backupPath, hex, hpar, hn, backupPathImpl, backupPathFor, Node.kindOf]
        · intro rest
          rw [renameTree]
          rw [if_neg]
          · rw [if_pos (hsub_clear rest)]
          · rw [backupPathFor]
            intro hc
            exact hdest_not_in_target rest hc
        · intro q hq1 hq2 hq3
          rw [renameTree]
          rw [backupPathFor]
          rw [if_neg, if_neg hq1]
          · rw [ensureDir, if_neg]
            rintro ⟨hc, -⟩
            have h1 : q.isPrefixOf (s.dir ++ target) = true :=
              isPrefixOf_trans hc
                (List.isPrefixOf_iff_prefix.mpr (List.dropLast_prefix _))
            rcases prefix_trichotomy h1 (isPrefixOf_append_left s.dir target) with hc2 | hc2
            · exact hq3 hc2
            · exact hq2 hc2
          · intro hc
            exact hq2 (isPrefixOf_trans (isPrefixOf_append_left s.dir target) hc)
      | dir =>
        refine ⟨renameTree (ensureDir fs (backupPathFor target s.dir).dropLast)
            target (backupPathFor target s.dir),
          { s with
            entries := s.entries ++ [⟨target, some (backupPathFor target s.dir),
              NodeKind.dir, .backup⟩]
            seen := s.seen ++ [target] }, true, ?_, rfl, Or.inr rfl, ?_, ?_⟩
        · simp [backupPath, hex, hpar, hn, backupPathImpl, backupPathFor, Node.kindOf]
        · intro rest
          rw [renameTree]
          rw [if_neg]
          · rw [if_pos (hsub_clear rest)]
          · rw [backupPathFor]
            intro hc
            exact hdest_not_in_target rest hc
        · intro q hq1 hq2 hq3
          rw [renameTree]
          rw [backupPathFor]
          rw [if_neg, if_neg hq1]
          · rw [ensureDir, if_neg]
            rintro ⟨hc, -⟩
            have h1 : q.isPrefixOf (s.dir ++ target) = true :=
              isPrefixOf_trans hc
                (List.isPrefixOf_iff_prefix.mpr (List.dropLast_prefix _))
            rcases prefix_trichotomy h1 (isPrefixOf_append_left s.dir target) with hc2 | hc2
            · exact hq3 hc2
            · exact hq2 hc2
          · intro hc
            exact hq2 (isPrefixOf_trans (isPrefixOf_append_left s.dir target) hc)
  · refine ⟨fs, s, false, ?_, rfl, Or.inl rfl, ?_, fun q _ _ _ => rfl⟩
    · simp [backupPath, hex]
    · intro rest
      have hnone : fs target = none := by
        rw [pathExists] at hex
        simpa using hex
      exact htidy.1 hnone rest

theorem TidyAt.congr {fs fs2 : Fs} {p : FsPath}
    (h : ∀ r, fs2 (p ++ r) = fs (p ++ r)) (ht : TidyAt fs p) : TidyAt fs2 p := by
  have hp : fs2 p = fs p := by
    have := h []
    rwa [List.append_nil] at this
  constructor
  · intro h0 rest
    rw [h rest]
    exact ht.1 (hp ▸ h0) rest
  · intro l h0 rest hr
    rw [h rest]
    exact ht.2 l (hp ▸ h0) rest hr

/-- The defensive sweep of undoLastChange clears the subtree at every
entry's original path and changes nothing outside the original paths'
subtrees, the undo session's subtree and the undo session's ancestors. -/
theorem sweep_fold (entries : List BackupEntry) :
    ∀ (fs : Fs) (s : BackupSession) (i : Nat),
      List.Pairwise (fun e1 e2 => SeparateFrom e1.originalPath e2.originalPath)
        entries →
      (∀ e ∈ entries, SeparateFrom e.originalPath s.dir) →
      (∀ e ∈ entries, TidyAt fs e.originalPath) →
      (∀ p ∈ s.seen, ∀ e ∈ entries, p.isPrefixOf e.originalPath ≠ true) →
      ∃ fs2 s2,
        backupExistingOriginals fs entries s (fun _ => none) i = .ok (fs2, s2) ∧
        s2.dir = s.dir ∧
        (∀ e ∈ entries, ∀ rest, fs2 (e.originalPath ++ rest) = none) ∧
        (∀ q, (∀ e ∈ entries, e.originalPath.isPrefixOf q ≠ true) →
          s.dir.isPrefixOf q ≠ true → q.isPrefixOf s.dir ≠ true → fs2 q = fs q) := by
  induction entries with
  | nil =>
    intro fs s i _ _ _ _
    exact ⟨fs, s, rfl, rfl, by simp, fun q _ _ _ => rfl⟩
  | cons e rest ih =>
    intro fs s i hpw hsep htidy hseen
    rw [List.pairwise_cons] at hpw
    obtain ⟨hpw1, hpw2⟩ := hpw
    have hsepE : SeparateFrom e.originalPath s.dir := hsep e (List.mem_cons_self e rest)
    by_cases hex : pathExists fs e.originalPath = true
    · obtain ⟨fs1, s1, moved, heq, hdir, hseen1, hclear, hpres⟩ :=
        sweep_step fs e.originalPath s hsepE (htidy e (List.mem_cons_self e rest))
          (fun p hp => hseen p hp e (List.mem_cons_self e rest))
      have hrestSub : ∀ e2 ∈ rest, ∀ r, fs1 (e2.originalPath ++ r) =
          fs (e2.originalPath ++ r) := by
        intro e2 hmem r
        apply hpres
        · exact (hpw1 e2 hmem).symm.not_both_prefixOf
            (isPrefixOf_append_left e2.originalPath r)
        · exact (hsep e2 (List.mem_cons_of_mem e hmem)).not_both_prefixOf
            (isPrefixOf_append_left e2.originalPath r)
        · intro hc
          exact (hsep e2 (List.mem_cons_of_mem e hmem)).no_descendant_ancestor
            (isPrefixOf_append_left e2.originalPath r) hc
      obtain ⟨fs2, s2, heq2, hdir2, hclear2, hpres2⟩ := ih fs1 s1 (i + 1) hpw2
        (fun e2 hmem => hdir ▸ hsep e2 (List.mem_cons_of_mem e hmem))
        (fun e2 hmem => (htidy e2 (List.mem_cons_of_mem e hmem)).congr
          (hrestSub e2 hmem))
        (by
          intro p hp e2 hmem
          rcases hseen1 with hs1 | hs1
          · rw [hs1] at hp
            exact hseen p hp e2 (List.mem_cons_of_mem e hmem)
          · rw [hs1, List.mem_append] at hp
            rcases hp with hp | hp
            · exact hseen p hp e2 (List.mem_cons_of_mem e hmem)
            · rw [List.mem_singleton] at hp
              subst hp
              exact (hpw1 e2 hmem).1)
      refine ⟨fs2, s2, ?_, hdir2.trans hdir, ?_, ?_⟩
      · rw [backupExistingOriginals, if_neg (not_not_intro hex), heq]
        exact heq2
      · intro e2 hmem rest2
        rcases List.mem_cons.mp hmem with hmem | hmem
        · subst hmem
          rw [hpres2 (e2.originalPath ++ rest2) ?_ ?_ ?_]
          · exact hclear rest2
          · intro e3 hmem3 hc
            exact (hpw1 e3 hmem3).not_both_prefixOf
              (isPrefixOf_append_left e2.originalPath rest2) hc
          · rw [hdir]
            exact hsepE.not_both_prefixOf
              (isPrefixOf_append_left e2.originalPath rest2)
          · rw [hdir]
            intro hc
            exact hsepE.no_descendant_ancestor
              (isPrefixOf_append_left e2.originalPath rest2) hc
        · exact hclear2 e2 hmem rest2
      · intro q hq hq2 hq3
        rw [hpres2 q (fun e2 hmem => hq e2 (List.mem_cons_of_mem e hmem))
          (hdir ▸ hq2) (hdir ▸ hq3)]
        exact hpres q (hq e (List.mem_cons_self e rest)) hq2 hq3
    · have hnone : fs e.originalPath = none := by
        rw [pathExists] at hex
        simpa using hex
      obtain ⟨fs2, s2, heq2, hdir2, hclear2, hpres2⟩ := ih fs s (i + 1) hpw2
        (fun e2 hmem => hsep e2 (List.mem_cons_of_mem e hmem))
        (fun e2 hmem => htidy e2 (List.mem_cons_of_mem e hmem))
        (fun p hp e2 hmem => hseen p hp e2 (List.mem_cons_of_mem e hmem))
      refine ⟨fs2, s2, ?_, hdir2, ?_, ?_⟩
      · rw [backupExistingOriginals, if_pos]
        · exact heq2
        · simpa using hex
      · intro e2 hmem rest2
        rcases List.mem_cons.mp hmem with hmem | hmem
        · subst hmem
          rw [hpres2 (e2.originalPath ++ rest2) ?_ ?_ ?_]
          · exact (htidy e2 (List.mem_cons_self e2 rest)).1 hnone rest2
          · intro e3 hmem3 hc
            exact (hpw1 e3 hmem3).not_both_prefixOf
              (isPrefixOf_append_left e2.originalPath rest2) hc
          · exact hsepE.not_both_prefixOf
              (isPrefixOf_append_left e2.originalPath rest2)
          · intro hc
            exact hsepE.no_descendant_ancestor
              (isPrefixOf_append_left e2.originalPath rest2) hc
        · exact hclear2 e2 hmem rest2
      · intro q hq hq2 hq3
        exact hpres2 q (fun e2 hmem => hq e2 (List.mem_cons_of_mem e hmem)) hq2 hq3

theorem append_isPrefixOf_cancel {a b c : FsPath}
    (h : (a ++ b).isPrefixOf (a ++ c) = true) : b.isPrefixOf c = true := by
  rw [List.isPrefixOf_iff_prefix] at h ⊢
  exact (List.prefix_append_right_inj a).mp h

theorem undoEntries_cons_backup (fs : Fs) (e : BackupEntry)
    (rest : List BackupEntry) (oracle : Nat → Option String) (i : Nat)
    (c : RestoreCounts) (bp : FsPath) (fs1 : Fs)
    (hact : ¬ e.action = EntryAction.create) (hbp : e.backupPath = some bp)
    (hex : pathExists fs bp = true)
    (hrp : restorePath fs e (oracle i) = .ok fs1) :
    undoEntries fs (e :: rest) oracle i c =
      undoEntries fs1 rest oracle (i + 1)
        { c with
          restored := c.restored + 1
          restoredBackups := c.restoredBackups + 1 } := by
  rw [undoEntries, if_neg hact, hbp]
  simp [hex, hrp]

theorem undoEntries_cons_create_skip (fs : Fs) (e : BackupEntry)
    (rest : List BackupEntry) (oracle : Nat → Option String) (i : Nat)
    (c : RestoreCounts) (hact : e.action = EntryAction.create)
    (hex : pathExists fs e.originalPath = false) :
    undoEntries fs (e :: rest) oracle i c =
      undoEntries fs rest oracle (i + 1) c := by
  rw [undoEntries, if_pos hact]
  simp [hex]

/-- The restore loop: starting from a filesystem where every recorded
original path's subtree has been cleared (by the defensive sweep) and
every backup copy is intact, the loop rebuilds the pre-operation content
at every recorded path, touching nothing outside the recorded paths'
subtrees, their ancestors and the undone session's subtree. -/
theorem restore_fold (fs0 : Fs) (latestDir : FsPath) (entries : List BackupEntry) :
    ∀ (fs : Fs) (i : Nat) (c : RestoreCounts),
      List.Pairwise (fun e1 e2 => SeparateFrom e1.originalPath e2.originalPath)
        entries →
      (∀ e ∈ entries, SeparateFrom e.originalPath latestDir) →
      (∀ e ∈ entries, ∀ rest, fs (e.originalPath ++ rest) = none) →
      (∀ e ∈ entries, e.action = EntryAction.backup →
        e.backupPath = some (latestDir ++ e.originalPath) ∧
        (∀ rest, fs ((latestDir ++ e.originalPath) ++ rest) =
          fs0 (e.originalPath ++ rest)) ∧
        (∃ n, fs0 e.originalPath = some n) ∧
        (e.kind = NodeKind.symlink →
          (∃ l, fs0 e.originalPath = some (Node.symlink l)) ∧
          ∀ rest, rest ≠ ([] : FsPath) → fs0 (e.originalPath ++ rest) = none)) →
      (∀ e ∈ entries, e.action = EntryAction.create →
        ∀ rest, fs0 (e.originalPath ++ rest) = none) →
      (∀ e ∈ entries, e.action = EntryAction.backup ∨
        e.action = EntryAction.create) →
      ∃ fs2 c2, undoEntries fs entries (fun _ => none) i c = .ok (fs2, c2) ∧
        (∀ e ∈ entries, ∀ rest, fs2 (e.originalPath ++ rest) =
          fs0 (e.originalPath ++ rest)) ∧
        (∀ q, (∀ e ∈ entries, e.originalPath.isPrefixOf q ≠ true ∧
            q.isPrefixOf e.originalPath ≠ true ∧
            (latestDir ++ e.originalPath).isPrefixOf q ≠ true) → fs2 q = fs q) := by
  induction entries with
  | nil =>
    intro fs i c _ _ _ _ _ _
    exact ⟨fs, c, rfl, by simp, fun q _ => rfl⟩
  | cons e rest ih =>
    intro fs i c hpw hsepL hclear hintact hcreated hacts
    rw [List.pairwise_cons] at hpw
    obtain ⟨hpw1, hpw2⟩ := hpw
    have hmemE : e ∈ e :: rest := List.mem_cons_self e rest
    have hsepE : SeparateFrom e.originalPath latestDir := hsepL e hmemE
    have hLne : latestDir ≠ [] := hsepE.ne_nil_right
    -- conditions used to apply step preservation at points of the
    -- remaining entries
    have hcondRest : ∀ e2 ∈ rest, ∀ (r : List String),
        e.originalPath.isPrefixOf (e2.originalPath ++ r) ≠ true ∧
        (e2.originalPath ++ r).isPrefixOf e.originalPath ≠ true ∧
        (latestDir ++ e.originalPath).isPrefixOf (e2.originalPath ++ r) ≠ true := by
      intro e2 hmem r
      refine ⟨?_, ?_, ?_⟩
      · exact (hpw1 e2 hmem).symm.not_both_prefixOf
          (isPrefixOf_append_left e2.originalPath r)
      · intro hc
        exact (hpw1 e2 hmem).2
          (isPrefixOf_trans (isPrefixOf_append_left e2.originalPath r) hc)
      · intro hc
        have hL : latestDir.isPrefixOf (e2.originalPath ++ r) = true :=
          isPrefixOf_trans (isPrefixOf_append_left latestDir e.originalPath) hc
        exact (hsepL e2 (List.mem_cons_of_mem e hmem)).not_both_prefixOf
          (isPrefixOf_append_left e2.originalPath r) hL
    have hcondBp : ∀ e2 ∈ rest, ∀ (r : List String),
        e.originalPath.isPrefixOf ((latestDir ++ e2.originalPath) ++ r) ≠ true ∧
        ((latestDir ++ e2.originalPath) ++ r).isPrefixOf e.originalPath ≠ true ∧
        (latestDir ++ e.originalPath).isPrefixOf
          ((latestDir ++ e2.originalPath) ++ r) ≠ true := by
      intro e2 hmem r
      have hLq : latestDir.isPrefixOf ((latestDir ++ e2.originalPath) ++ r) = true := by
        rw [List.append_assoc]
        exact isPrefixOf_append_left latestDir (e2.originalPath ++ r)
      refine ⟨?_, ?_, ?_⟩
      · intro hc
        rcases prefix_trichotomy hc hLq with hc2 | hc2
        · exact hsepE.1 hc2
        · exact hsepE.2 hc2
      · intro hc
        exact hsepE.2 (isPrefixOf_trans hLq hc)
      · intro hc
        rw [List.append_assoc] at hc
        have := append_isPrefixOf_cancel hc
        rcases prefix_trichotomy this
          (isPrefixOf_append_left e2.originalPath r) with hc2 | hc2
        · exact (hpw1 e2 hmem).1 hc2
        · exact (hpw1 e2 hmem).2 hc2
    have hcondSelf : ∀ e3 ∈ rest, ∀ (r : List String),
        e3.originalPath.isPrefixOf (e.originalPath ++ r) ≠ true ∧
        (e.originalPath ++ r).isPrefixOf e3.originalPath ≠ true ∧
        (latestDir ++ e3.originalPath).isPrefixOf (e.originalPath ++ r) ≠ true := by
      intro e3 hmem r
      refine ⟨?_, ?_, ?_⟩
      · exact (hpw1 e3 hmem).not_both_prefixOf
          (isPrefixOf_append_left e.originalPath r)
      · intro hc
        exact (hpw1 e3 hmem).1
          (isPrefixOf_trans (isPrefixOf_append_left e.originalPath r) hc)
      · intro hc
        have hL : latestDir.isPrefixOf (e.originalPath ++ r) = true :=
          isPrefixOf_trans (isPrefixOf_append_left latestDir e3.originalPath) hc
        exact hsepE.not_both_prefixOf (isPrefixOf_append_left e.originalPath r) hL
    rcases hacts e hmemE with hact | hact
    · -- backup entry: restore it
      obtain ⟨hbp, hint, ⟨n0, hn0⟩, hsym⟩ := hintact e hmemE hact
      have hncreate : ¬ e.action = EntryAction.create := by
        rw [hact]
        simp
      have hfsbp : fs (latestDir ++ e.originalPath) = fs0 e.originalPath := by
        have := hint []
        rwa [List.append_nil, List.append_nil] at this
      have hexbp : pathExists fs (latestDir ++ e.originalPath) = true := by
        rw [pathExists, hfsbp, hn0]
        rfl
      -- derived separations
      have hbp_ne_op : latestDir ++ e.originalPath ≠ e.originalPath := by
        intro hc
        have := congrArg List.length hc
        rw [List.length_append] at this
        exact hLne (List.eq_nil_of_length_eq_zero (by omega))
      have hbp_not_prefix_op :
          (latestDir ++ e.originalPath).isPrefixOf e.originalPath ≠ true := by
        intro hc
        exact hsepE.2 (isPrefixOf_trans (isPrefixOf_append_left latestDir
          e.originalPath) hc)
      have hop_ne_nil : e.originalPath ≠ [] := hsepE.ne_nil_left
      have hanc_excl : ∀ (q : FsPath), q.isPrefixOf e.originalPath.dropLast = true →
          e.originalPath.isPrefixOf q ≠ true := by
        intro q hq hc
        have h1 : q.isPrefixOf e.originalPath = true :=
          isPrefixOf_trans hq
            (List.isPrefixOf_iff_prefix.mpr (List.dropLast_prefix _))
        rw [List.isPrefixOf_iff_prefix] at h1 hc hq
        have hlen1 := h1.length_le
        have hlen2 := hc.length_le
        have hdl := hq.length_le
        rw [List.length_dropLast] at hdl
        have hpos : 0 < e.originalPath.length := List.length_pos.mpr hop_ne_nil
        omega
      by_cases hk : e.kind = NodeKind.symlink
      · -- symlink entry
        obtain ⟨⟨l, hl⟩, htidy0⟩ := hsym hk
        have hfsbp2 : fs (latestDir ++ e.originalPath) = some (Node.symlink l) := by
          rw [hfsbp, hl]
        have hrp : restorePath fs e none =
            .ok (unlink (writeNode (ensureDir fs e.originalPath.dropLast)
              e.originalPath (Node.symlink l)) (latestDir ++ e.originalPath)) := by
          rw [restorePath, if_neg hncreate, hbp]
          simp [hk, restoreSymlink, hbp, readlink, hfsbp2]
        set fsStep := unlink (writeNode (ensureDir fs e.originalPath.dropLast)
          e.originalPath (Node.symlink l)) (latestDir ++ e.originalPath) with hfsStep
        have hstepPres : ∀ q, e.originalPath.isPrefixOf q ≠ true →
            q.isPrefixOf e.originalPath ≠ true →
            (latestDir ++ e.originalPath).isPrefixOf q ≠ true →
            fsStep q = fs q := by
          intro q hq1 hq2 hq3
          rw [hfsStep, unlink, if_neg, writeNode, if_neg]
          · apply ensureDir_outside_eq
            intro hc
            exact hanc_excl q (by exact hc) (by
              exact absurd (isPrefixOf_trans hc
                (List.isPrefixOf_iff_prefix.mpr (List.dropLast_prefix _))) hq2) |>.elim
          · intro hc
            subst hc
            exact hq1 (isPrefixOf_refl _)
          · intro hc
            subst hc
            exact hq3 (isPrefixOf_refl _)
        have hstepSub : ∀ r, fsStep (e.originalPath ++ r) =
            fs0 (e.originalPath ++ r) := by
          intro r
          cases r with
          | nil =>
            rw [List.append_nil, hfsStep, unlink, if_neg, writeNode, if_pos rfl, hl]
            intro hc
            exact hbp_ne_op hc.symm
          | cons x rs =>
            rw [hfsStep, unlink, if_neg, writeNode, if_neg append_cons_ne_self]
            · rw [ensureDir_outside_eq]
              · rw [hclear e hmemE (x :: rs), htidy0 (x :: rs) (by simp)]
              · intro hc
                exact hanc_excl (e.originalPath ++ x :: rs) hc
                  (isPrefixOf_append_left _ _)
            · intro hc
              have : (latestDir ++ e.originalPath).isPrefixOf
                  (e.originalPath ++ x :: rs) = true := hc ▸ isPrefixOf_refl _
              have hL2 : latestDir.isPrefixOf (e.originalPath ++ x :: rs) = true :=
                isPrefixOf_trans (isPrefixOf_append_left latestDir _) this
              exact hsepE.not_both_prefixOf (isPrefixOf_append_left _ _) hL2
        obtain ⟨fs2, c2, heq2, hsub2, hpres2⟩ := ih fsStep (i + 1)
          { c with restored := c.restored + 1, restoredBackups := c.restoredBackups + 1 }
          hpw2 (fun e2 hmem => hsepL e2 (List.mem_cons_of_mem e hmem))
          (fun e2 hmem r => by
            rw [hstepPres _ (hcondRest e2 hmem r).1 (hcondRest e2 hmem r).2.1
              (hcondRest e2 hmem r).2.2]
            exact hclear e2 (List.mem_cons_of_mem e hmem) r)
          (fun e2 hmem hact2 => by
            obtain ⟨hbp2, hint2, hex2, hsym2⟩ :=
              hintact e2 (List.mem_cons_of_mem e hmem) hact2
            refine ⟨hbp2, ?_, hex2, hsym2⟩
            intro r
            rw [hstepPres _ (hcondBp e2 hmem r).1 (hcondBp e2 hmem r).2.1
              (hcondBp e2 hmem r).2.2]
            exact hint2 r)
          (fun e2 hmem => hcreated e2 (List.mem_cons_of_mem e hmem))
          (fun e2 hmem => hacts e2 (List.mem_cons_of_mem e hmem))
        refine ⟨fs2, c2, ?_, ?_, ?_⟩
        · rw [undoEntries_cons_backup fs e rest (fun _ => none) i c
            (latestDir ++ e.originalPath) fsStep hncreate hbp hexbp hrp]
          exact heq2
        · intro e2 hmem r
          rcases List.mem_cons.mp hmem with hmem | hmem
          · subst hmem
            rw [hpres2 _ (fun e3 hmem3 => hcondSelf e3 hmem3 r)]
            exact hstepSub r
          · exact hsub2 e2 hmem r
        · intro q hq
          rw [hpres2 q (fun e2 hmem => hq e2 (List.mem_cons_of_mem e hmem))]
          exact hstepPres q (hq e hmemE).1 (hq e hmemE).2.1 (hq e hmemE).2.2
      · -- file or directory entry
        have hrp : restorePath fs e none =
            .ok (renameTree (ensureDir fs e.originalPath.dropLast)
              (latestDir ++ e.originalPath) e.originalPath) := by
          rw [restorePath, if_neg hncreate, hbp]
          simp [hk]
        set fsStep := renameTree (ensureDir fs e.originalPath.dropLast)
          (latestDir ++ e.originalPath) e.originalPath with hfsStep
        have hstepPres : ∀ q, e.originalPath.isPrefixOf q ≠ true →
            q.isPrefixOf e.originalPath ≠ true →
            (latestDir ++ e.originalPath).isPrefixOf q ≠ true →
            fsStep q = fs q := by
          intro q hq1 hq2 hq3
          rw [hfsStep, renameTree, if_neg hq1, if_neg hq3]
          apply ensureDir_outside_eq
          intro hc
          exact absurd (isPrefixOf_trans hc
            (List.isPrefixOf_iff_prefix.mpr (List.dropLast_prefix _))) hq2
        have hstepSub : ∀ r, fsStep (e.originalPath ++ r) =
            fs0 (e.originalPath ++ r) := by
          intro r
          rw [hfsStep, renameTree, if_pos (isPrefixOf_append_left _ r),
            List.drop_left]
          rw [ensureDir_outside_eq]
          · exact hint r
          · intro hc
            have h1 : (latestDir ++ e.originalPath).isPrefixOf e.originalPath = true :=
              isPrefixOf_trans (isPrefixOf_append_left _ r)
                (isPrefixOf_trans hc
                  (List.isPrefixOf_iff_prefix.mpr (List.dropLast_prefix _)))
            exact hbp_not_prefix_op h1
        obtain ⟨fs2, c2, heq2, hsub2, hpres2⟩ := ih fsStep (i + 1)
          { c with restored := c.restored + 1, restoredBackups := c.restoredBackups + 1 }
          hpw2 (fun e2 hmem => hsepL e2 (List.mem_cons_of_mem e hmem))
          (fun e2 hmem r => by
            rw [hstepPres _ (hcondRest e2 hmem r).1 (hcondRest e2 hmem r).2.1
              (hcondRest e2 hmem r).2.2]
            exact hclear e2 (List.mem_cons_of_mem e hmem) r)
          (fun e2 hmem hact2 => by
            obtain ⟨hbp2, hint2, hex2, hsym2⟩ :=
              hintact e2 (List.mem_cons_of_mem e hmem) hact2
            refine ⟨hbp2, ?_, hex2, hsym2⟩
            intro r
            rw [hstepPres _ (hcondBp e2 hmem r).1 (hcondBp e2 hmem r).2.1
              (hcondBp e2 hmem r).2.2]
            exact hint2 r)
          (fun e2 hmem => hcreated e2 (List.mem_cons_of_mem e hmem))
          (fun e2 hmem => hacts e2 (List.mem_cons_of_mem e hmem))
        refine ⟨fs2, c2, ?_, ?_, ?_⟩
        · rw [undoEntries_cons_backup fs e rest (fun _ => none) i c
            (latestDir ++ e.originalPath) fsStep hncreate hbp hexbp hrp]
          exact heq2
        · intro e2 hmem r
          rcases List.mem_cons.mp hmem with hmem | hmem
          · subst hmem
            rw [hpres2 _ (fun e3 hmem3 => hcondSelf e3 hmem3 r)]
            exact hstepSub r
          · exact hsub2 e2 hmem r
        · intro q hq
          rw [hpres2 q (fun e2 hmem => hq e2 (List.mem_cons_of_mem e hmem))]
          exact hstepPres q (hq e hmemE).1 (hq e hmemE).2.1 (hq e hmemE).2.2
    · -- create entry: its original path was already swept away, skip
      have hfsop : fs e.originalPath = none := by
        have := hclear e hmemE []
        rwa [List.append_nil] at this
      have hexop : pathExists fs e.originalPath = false := by
        rw [pathExists, hfsop]
        rfl
      obtain ⟨fs2, c2, heq2, hsub2, hpres2⟩ := ih fs (i + 1) c hpw2
        (fun e2 hmem => hsepL e2 (List.mem_cons_of_mem e hmem))
        (fun e2 hmem => hclear e2 (List.mem_cons_of_mem e hmem))
        (fun e2 hmem => hintact e2 (List.mem_cons_of_mem e hmem))
        (fun e2 hmem => hcreated e2 (List.mem_cons_of_mem e hmem))
        (fun e2 hmem => hacts e2 (List.mem_cons_of_mem e hmem))
      refine ⟨fs2, c2, ?_, ?_, ?_⟩
      · rw [undoEntries_cons_create_skip fs e rest (fun _ => none) i c hact hexop]
        exact heq2
      · intro e2 hmem r
        rcases List.mem_cons.mp hmem with hmem | hmem
        · subst hmem
          rw [hpres2 _ (fun e3 hmem3 => hcondSelf e3 hmem3 r)]
          rw [hclear e2 hmemE r]
          exact (hcreated e2 hmemE hact r).symm
        · exact hsub2 e2 hmem r
      · intro q hq
        exact hpres2 q (fun e2 hmem => hq e2 (List.mem_cons_of_mem e hmem))

theorem entryAction_cases (a : EntryAction) :
    a = EntryAction.backup ∨ a = EntryAction.create := by
  cases a
  · exact Or.inl rfl
  · exact Or.inr rfl

/-- C1: undoLastChange, applied to the latest finalized backup session
manifest, restores every action: backup entry by moving its stored backup
content back to its original path byte for byte, and deletes the original
path of every action: create entry, so that after the undo the filesystem
below each recorded path equals its pre-operation state fs0.  The
hypotheses state that the manifest is one the engine wrote: original paths
are pairwise non-overlapping and separate from the undone and fresh
session directories, every backup entry's copy sits intact at its recorded
backup path inside the undone session, created paths did not exist before
the operation, and absent or symlink nodes carry no stray descendants. -/
theorem undo_round_trip (fs0 fs1 : Fs) (scope : Scope) (canonicalRoot : FsPath)
    (dirs : List FsPath) (load : FsPath → Option BackupManifest)
    (timestamp now : String) (latestDir : FsPath) (m : BackupManifest)
    (hfound : findLatestBackup dirs load = some (latestDir, m))
    (hpw : List.Pairwise (fun e1 e2 => SeparateFrom e1.originalPath e2.originalPath)
      m.entries)
    (hsepL : ∀ e ∈ m.entries, SeparateFrom e.originalPath latestDir)
    (hsepU : ∀ e ∈ m.entries,
      SeparateFrom e.originalPath (canonicalRoot ++ ["backup", timestamp]))
    (hsepDirs : SeparateFrom latestDir (canonicalRoot ++ ["backup", timestamp]))
    (htidy : ∀ e ∈ m.entries, TidyAt fs1 e.originalPath)
    (hintact : ∀ e ∈ m.entries, e.action = EntryAction.backup →
      e.backupPath = some (latestDir ++ e.originalPath) ∧
      (∀ rest, fs1 ((latestDir ++ e.originalPath) ++ rest) =
        fs0 (e.originalPath ++ rest)) ∧
      (∃ n, fs0 e.originalPath = some n) ∧
      (e.kind = NodeKind.symlink →
        (∃ l, fs0 e.originalPath = some (Node.symlink l)) ∧
        ∀ rest, rest ≠ ([] : FsPath) → fs0 (e.originalPath ++ rest) = none))
    (hcreated : ∀ e ∈ m.entries, e.action = EntryAction.create →
      ∀ rest, fs0 (e.originalPath ++ rest) = none) :
    ∃ fs2 counts,
      undoLastChange fs1 scope canonicalRoot dirs load timestamp now
        (fun _ => none) (fun _ => none) =
        .ok (fs2, counts, canonicalRoot ++ ["backup", timestamp], latestDir) ∧
      ∀ e ∈ m.entries, ∀ rest,
        fs2 (e.originalPath ++ rest) = fs0 (e.originalPath ++ rest) := by
  have hEDsub : ∀ e ∈ m.entries, ∀ (r : List String),
      ensureDir fs1 (canonicalRoot ++ ["backup", timestamp]) (e.originalPath ++ r) =
        fs1 (e.originalPath ++ r) := by
    intro e hmem r
    apply ensureDir_outside_eq
    intro hc
    exact (hsepU e hmem).1
      (isPrefixOf_trans (isPrefixOf_append_left e.originalPath r) hc)
  have hEDbp : ∀ e ∈ m.entries, ∀ (r : List String),
      ensureDir fs1 (canonicalRoot ++ ["backup", timestamp])
          ((latestDir ++ e.originalPath) ++ r) =
        fs1 ((latestDir ++ e.originalPath) ++ r) := by
    intro e hmem r
    apply ensureDir_outside_eq
    intro hc
    exact hsepDirs.1 (isPrefixOf_trans
      (isPrefixOf_trans (isPrefixOf_append_left latestDir e.originalPath)
        (isPrefixOf_append_left (latestDir ++ e.originalPath) r)) hc)
  obtain ⟨fsA, sA, heqA, hdirA, hclearA, hpresA⟩ :=
    sweep_fold m.entries (ensureDir fs1 (canonicalRoot ++ ["backup", timestamp]))
      { dir := canonicalRoot ++ ["backup", timestamp], createdAt := now
        scope := scope, operation := "undo", entries := [], seen := [] } 0
      hpw (fun e hmem => hsepU e hmem)
      (fun e hmem => (htidy e hmem).congr (hEDsub e hmem))
      (fun p hp => by simp at hp)
  have hbpA : ∀ e ∈ m.entries, e.action = EntryAction.backup →
      ∀ (r : List String), fsA ((latestDir ++ e.originalPath) ++ r) =
        fs0 (e.originalPath ++ r) := by
    intro e hmem hact r
    have hLq : latestDir.isPrefixOf ((latestDir ++ e.originalPath) ++ r) = true :=
      isPrefixOf_trans (isPrefixOf_append_left latestDir e.originalPath)
        (isPrefixOf_append_left (latestDir ++ e.originalPath) r)
    rw [hpresA ((latestDir ++ e.originalPath) ++ r) ?_ ?_ ?_]
    · rw [hEDbp e hmem r]
      exact (hintact e hmem hact).2.1 r
    · intro e2 hmem2 hc
      exact (hsepL e2 hmem2).not_both_prefixOf hc hLq
    · intro hc
      rcases prefix_trichotomy hc hLq with hc2 | hc2
      · exact hsepDirs.2 hc2
      · exact hsepDirs.1 hc2
    · intro hc
      exact hsepDirs.1 (isPrefixOf_trans hLq hc)
  obtain ⟨fs2, c2, heqB, hsubB, _⟩ :=
    restore_fold fs0 latestDir m.entries fsA 0 ⟨0, 0, 0, 0⟩ hpw hsepL hclearA
      (fun e hmem hact =>
        ⟨(hintact e hmem hact).1, hbpA e hmem hact,
          (hintact e hmem hact).2.2.1, (hintact e hmem hact).2.2.2⟩)
      hcreated (fun e _ => entryAction_cases e.action)
  refine ⟨fs2, c2, ?_, hsubB⟩
  have hrun : undoRun (ensureDir fs1 (canonicalRoot ++ ["backup", timestamp]))
      m.entries
      { dir := canonicalRoot ++ ["backup", timestamp], createdAt := now
        scope := scope, operation := "undo", entries := [], seen := [] }
      (fun _ => none) (fun _ => none) = .ok (fs2, c2) := by
    rw [undoRun, heqA]
    exact heqB
  rw [undoLastChange, hfound]
  simp only [createBackupSession]
  rw [hrun]

/-- Concrete check of C1: an apply backed up the file at p into session t1
and created a symlink at q; undoing restores p to its pre-operation file
content and removes q. -/
theorem undo_round_trip_witness :
    ∃ fs2 counts,
      undoLastChange fs1Undo Scope.global ["c"] undoExampleDirs undoExampleLoad
        "t2" "n" (fun _ => none) (fun _ => none) =
        .ok (fs2, counts, ["c", "backup", "t2"], ["c", "backup", "t1"]) ∧
      fs2 ["p"] = some (Node.file "x") ∧
      fs2 ["q"] = none := by
  have htidy : ∀ e ∈ undoExampleManifest.entries, TidyAt fs1Undo e.originalPath := by
    intro e hmem
    fin_cases hmem
    · constructor
      · intro h
        exact absurd h (by decide)
      · intro l hl rest hr
        cases rest with
        | nil => exact absurd rfl hr
        | cons a as => rfl
    · constructor
      · intro h
        exact absurd h (by decide)
      · intro l hl rest hr
        cases rest with
        | nil => exact absurd rfl hr
        | cons a as => rfl
  have hintact : ∀ e ∈ undoExampleManifest.entries,
      e.action = EntryAction.backup →
      e.backupPath = some (["c", "backup", "t1"] ++ e.originalPath) ∧
      (∀ rest, fs1Undo ((["c", "backup", "t1"] ++ e.originalPath) ++ rest) =
        fs0Undo (e.originalPath ++ rest)) ∧
      (∃ n, fs0Undo e.originalPath = some n) ∧
      (e.kind = NodeKind.symlink →
        (∃ l, fs0Undo e.originalPath = some (Node.symlink l)) ∧
        ∀ rest, rest ≠ ([] : FsPath) → fs0Undo (e.originalPath ++ rest) = none) := by
    intro e hmem
    fin_cases hmem
    · intro _
      refine ⟨rfl, ?_, ⟨Node.file "x", rfl⟩, ?_⟩
      · intro rest
        cases rest with
        | nil => rfl
        | cons a as => rfl
      · intro h
        exact absurd h (by decide)
    · intro h
      exact absurd h (by decide)
  have hcreated : ∀ e ∈ undoExampleManifest.entries,
      e.action = EntryAction.create →
      ∀ rest, fs0Undo (e.originalPath ++ rest) = none := by
    intro e hmem
    fin_cases hmem
    · intro h
      exact absurd h (by decide)
    · intro _ rest
      cases rest with
      | nil => rfl
      | cons a as => rfl
  obtain ⟨fs2, counts, hrun, hsub⟩ :=
    undo_round_trip fs0Undo fs1Undo Scope.global ["c"] undoExampleDirs
      undoExampleLoad "t2" "n" ["c", "backup", "t1"] undoExampleManifest
      (by decide) (by decide) (by decide) (by decide) (by decide)
      htidy hintact hcreated
  refine ⟨fs2, counts, hrun, ?_, ?_⟩
  · have h := hsub ⟨["p"], some ["c", "backup", "t1", "p"], NodeKind.file,
      EntryAction.backup⟩ (by decide) []
    rw [List.append_nil] at h
    rw [h]
    rfl
  · have h := hsub ⟨["q"], none, NodeKind.symlink, EntryAction.create⟩
      (by decide) []
    rw [List.append_nil] at h
    rw [h]
    rfl

end Dotagents
